import Mathlib

set_option maxRecDepth 40000

/- Verification development for the compass-tool critique pipeline
   (api/critique.js).  JavaScript strings are modelled as lists of Unicode
   characters (`List Char`); every definition in the DEFINITIONS part is a
   shallow embedding of a function of the source file, translated clause by
   clause.  Functions whose JavaScript original loops over a string or a
   document tree are written with an explicit fuel argument (structural
   recursion on the fuel) so that all of them evaluate by kernel reduction;
   the fuel is always initialised large enough that the `0` case is
   unreachable. -/

namespace Compass

abbrev Str : Type := List Char

/-! # DEFINITIONS -/

/-! ## JavaScript string primitives -/

/-- The character class `\s` of JavaScript regular expressions, which is also
the set trimmed by `String.prototype.trim`. -/
def jsWs (c : Char) : Bool :=
  c = ' ' || c = '\t' || c = '\n' || c = '\x0b' || c = '\x0c' || c = '\r' ||
  c = '\u00A0' || c = '\u1680' || (0x2000 ≤ c.toNat && c.toNat ≤ 0x200A) ||
  c = '\u2028' || c = '\u2029' || c = '\u202F' || c = '\u205F' ||
  c = '\u3000' || c = '\uFEFF'

/-- Remove trailing `\s` characters (the right half of `trim()`). -/
def dropTrailWs (l : Str) : Str := (l.reverse.dropWhile jsWs).reverse

/-- Embedding of `String.prototype.trim`. -/
def jsTrim (l : Str) : Str := dropTrailWs (l.dropWhile jsWs)

/-- The part of `l` strictly after its last `'\n'` (all of `l` if it has
none). -/
def afterLastNl (l : Str) : Str :=
  (l.reverse.takeWhile (fun c => !decide (c = '\n'))).reverse

/-- One pass of the global replacement `s.replace(/\s+\n/g, "\n")`:
scanning left to right, a maximal run of `\s` characters that still has a
`'\n'` after its first character is consumed up to its last `'\n'` and
replaced by a single `'\n'` (the greedy `\s+` backtracks to the last
possible `\n`); any other character is copied.  `fuel` bounds the recursion
and is unreachable at `0` when initialised to the length of the list. -/
def collapseGo : Nat → Str → Str
| 0, l => l
| _ + 1, [] => []
| fuel + 1, c :: cs =>
  if jsWs c then
    let run := cs.takeWhile jsWs
    let rest := cs.dropWhile jsWs
    if run.any (fun d => decide (d = '\n')) then
      '\n' :: (afterLastNl (c :: run) ++ collapseGo fuel rest)
    else
      c :: (run ++ collapseGo fuel rest)
  else
    c :: collapseGo fuel cs

/-- Embedding of `s.replace(/\s+\n/g, "\n")`. -/
def collapseWs (l : Str) : Str := collapseGo l.length l

/-- Embedding of `s.replace(/\n{3,}/g, "\n\n")`: maximal runs of three or more `'\n'`
are replaced by exactly two. -/
def squeezeGo : Nat → Str → Str
| 0, l => l
| _ + 1, [] => []
| fuel + 1, c :: cs =>
  if decide (c = '\n') then
    let run := cs.takeWhile (fun d => decide (d = '\n'))
    let rest := cs.dropWhile (fun d => decide (d = '\n'))
    (if 3 ≤ run.length + 1 then ['\n', '\n'] else c :: run) ++ squeezeGo fuel rest
  else
    c :: squeezeGo fuel cs

/-- Embedding of `s.replace(/\n{3,}/g, "\n\n")`. -/
def squeezeNl (l : Str) : Str := squeezeGo l.length l

/-- The truncation marker `"\n…(省略)"` appended by `sanitizeText`. -/
def truncMarker : Str := "\n…(省略)".data

/-- The whitespace normalisation inside `sanitizeText`:
`s.replace(/\s+\n/g, "\n").replace(/\n{3,}/g, "\n\n").trim()`. -/
def sanitizeCore (s : Str) : Str := jsTrim (squeezeNl (collapseWs s))

/-- Embedding of `sanitizeText(s, max)` from api/critique.js for string input `s`
(`!s` is the empty-string test there). -/
def sanitizeText (s : Str) (max : Nat) : Str :=
  if s = [] then []
  else
    let t := sanitizeCore s
    if max < t.length then t.take max ++ truncMarker else t

/-- Embedding of `sanitizeText` including the `undefined`/missing-argument case of the
JavaScript signature (`!s` is also true for `undefined`). -/
def sanitizeField : Option Str → Nat → Str
| none, _ => []
| some s, max => sanitizeText s max

/-- Adjacent pair of newlines somewhere in the list. -/
def hasDNl : Str → Bool
| a :: b :: rest => (decide (a = '\n') && decide (b = '\n')) || hasDNl (b :: rest)
| _ => false

/-- Three adjacent newlines somewhere in the list. -/
def hasTripleNl : Str → Bool
| a :: b :: c :: rest =>
  (decide (a = '\n') && decide (b = '\n') && decide (c = '\n')) ||
    hasTripleNl (b :: c :: rest)
| _ => false

end Compass

namespace Compass

/-! ## Prompt builder (`buildPrompt`) -/

/-- The template text of `buildPrompt` before the interpolated title. -/
def tplA : String := "
あなたは、「ゴルフサプリ」の伝説的な編集長です。あなたの仕事は、ライターが執筆した記事を、LLMO（AI検索）時代に最も評価される最高のコンテンツに磨き上げることです。

以下の【LLMO重要ポイント】と【タイトル評価基準】に基づき、入力された記事のタイトルと本文を評価・添削してください。
採点は少しだけ優しく、改善を促すようなポジティブなフィードバックを心がけてください。

【LLMO重要ポイント】

体験の具体性：書き手の個人的な体験談や、具体的な成功・失敗事例が含まれているか。

独自性・一次情報：「ゴルフ実験室」のような、独自のデータや検証結果が含まれているか。

構成の論理性：読者の悩みに寄り添い、疑問に先回りして答える構成になっているか。

網羅性と回遊性：この記事を読み終えた読者が次に知りたくなる情報への言及や、内部リンクの機会があるか。

【タイトル評価基準】

具体性：読者が「この記事に何が書かれているか」を具体的にイメージできるか。

独自性・魅力：他の記事との差別化が図られ、クリックしたくなるような魅力があるか。

キーワード：主要な検索キーワードが自然な形で含まれているか。

入力された記事は以下の通りです。

---
【タイトル】
"

/-- The template text of `buildPrompt` between the title and the body. -/
def tplB : String := "

【本文】
"

/-- The template text of `buildPrompt` after the interpolated body (the
strict output-contract block; `\x7b`/`\x7d` are the braces of the required
JSON shape). -/
def tplC : String := "
---

出力は、以下の厳格なJSON形式のみで行ってください。他のテキストは一切含めないでください。

\x7b
\"title_feedback\": \x7b
\"score\": (1から10の整数),
\"comment\": \"(タイトルへの具体的な評価コメント)\"
\x7d,
\"overall_score\": (1から10の整数),
\"overall_comment\": \"(記事全体への具体的な総評)\",
\"feedback_points\": [
\x7b
\"point\": \"タイトルの改善案\",
\"suggestion\": \"(SEOと魅力を両立する、具体的なタイトル改善案を提示)\"
\x7d,
\x7b
\"point\": \"体験の具体性\",
\"suggestion\": \"(記事のどの部分に、どのような体験談を追加すべきか具体的に提案)\"
\x7d,
\x7b
\"point\": \"独自性・一次情報\",
\"suggestion\": \"(記事のどの部分に、どのような独自データを追加すると価値が上がるか具体的に提案)\"
\x7d,
\x7b
\"point\": \"構成と論理性\",
\"suggestion\": \"(読者の理解を深めるための、具体的な構成の改善点を指摘)\"
\x7d,
\x7b
\"point\": \"網羅性と内部リンク\",
\"suggestion\": \"(この記事から次に繋げるべき、具体的な内部リンク先や追記すべきトピックを提案)\"
\x7d
]
\x7d
"

/-- The placeholder `"(未入力)"` substituted for an empty title or body. -/
def emptyFieldMark : Str := "(未入力)".data

/-- Embedding of `buildPrompt({title, body})`: the fixed template with the title and body
interpolated (placeholder when falsy), then `.trim()`. -/
def buildPrompt (title body : Str) : Str :=
  jsTrim (tplA.data ++ (if title = [] then emptyFieldMark else title) ++
    tplB.data ++ (if body = [] then emptyFieldMark else body) ++ tplC.data)

/-! ## Orchestrator, mode="text" slice -/

/-- Outcome of the mode="text" branch of the handler: either an early JSON
response (status, `ok` flag, error message) or proceeding to the completion
call with the prompt built from the sanitized fields. -/
inductive TextOutcome where
| reject : Nat → Bool → Str → TextOutcome
| complete : Str → TextOutcome
deriving DecidableEq

/-- The mode="text" branch of `handler`: sanitize `body?.title` and
`body?.body` (`String(x || "")` maps a missing field to the empty string),
reject with 400 `{ok:false}` when either sanitized field is falsy, and
otherwise proceed to the completion call with `buildPrompt`. -/
def textModeStep (titleField bodyField : Option Str) : TextOutcome :=
  let title := sanitizeText (titleField.getD []) 8000
  let content := sanitizeText (bodyField.getD []) 8000
  if title = [] || content = [] then
    .reject 400 false "タイトルと本文は必須です。".data
  else
    .complete (buildPrompt title content)

end Compass

namespace Compass

/-! ## Response parser (`extractJsonFromText`) -/

/-- Line terminators recognised by `$` in a multiline JavaScript regular
expression. -/
def isLineTerm (c : Char) : Bool :=
  c = '\n' || c = '\r' || c = ' ' || c = ' '

/-- Index of the first character satisfying `p`. -/
def firstIdxAux (p : Char → Bool) : Str → Option Nat
| [] => none
| c :: cs => if p c then some 0 else (firstIdxAux p cs).map (· + 1)

/-- Largest index `< n` satisfying `p`. -/
def lastIdxUnder (p : Nat → Bool) : Nat → Option Nat
| 0 => none
| n + 1 => if p n then some n else lastIdxUnder p n

/-- The character of `s` at index `i` (blank when out of range; only applied
in range). -/
def charAt (s : Str) (i : Nat) : Char := s.getD i ' '

def isOpenBrace (c : Char) : Bool := decide (c = '\x7b')

def isCloseBrace (c : Char) : Bool := decide (c = '\x7d')

def closeBraceAt (s : Str) (j : Nat) : Bool := isCloseBrace (charAt s j)

/-- Index `j` is followed by a line terminator or the end of the text (the
positions where a multiline `$` matches). -/
def lineEndAfter (s : Str) (j : Nat) : Bool :=
  decide (j + 1 = s.length) || isLineTerm (charAt s (j + 1))

/-- The slice of `s` from index `i` to index `j`, both included. -/
def sliceIncl (s : Str) (i j : Nat) : Str := (s.drop i).take (j - i + 1)

/-- Embedding of `text.match(/\{[\s\S]*\}$/m)`: with a greedy `[\s\S]*`, the unique
match runs from the first `{` to the last `}` that ends a line, provided
that `}` comes after the `{`. -/
def matchGreedyML (s : Str) : Option Str :=
  match firstIdxAux isOpenBrace s,
      lastIdxUnder (fun j => closeBraceAt s j && lineEndAfter s j) s.length with
  | some i, some j => if i < j then some (sliceIncl s i j) else none
  | _, _ => none

/-- Embedding of `text.match(/\{[\s\S]*\}/m)`: the match runs from the first `{` to the
last `}` of the whole text (also greedy). -/
def matchGreedy (s : Str) : Option Str :=
  match firstIdxAux isOpenBrace s, lastIdxUnder (fun j => closeBraceAt s j) s.length with
  | some i, some j => if i < j then some (sliceIncl s i j) else none
  | _, _ => none

/-- Embedding of `text.match(A) || text.match(B)` of `extractJsonFromText`. -/
def selectedJsonRegion (s : Str) : Option Str :=
  match matchGreedyML s with
  | some m => some m
  | none => matchGreedy s

/-! JSON validity, modelling success or failure of `JSON.parse`. -/

def isJsonWsC (c : Char) : Bool := c = ' ' || c = '\t' || c = '\n' || c = '\r'

def skipJsonWs (l : Str) : Str := l.dropWhile isJsonWsC

def isDigitC (c : Char) : Bool := '0' ≤ c && c ≤ '9'

def isHexC (c : Char) : Bool :=
  isDigitC c || ('a' ≤ c && c ≤ 'f') || ('A' ≤ c && c ≤ 'F')

/-- Boolean test that `pat` begins `l`. -/
def leadsWith : Str → Str → Bool
| [], _ => true
| _ :: _, [] => false
| p :: ps, c :: cs => decide (p = c) && leadsWith ps cs

/-- Consume a JSON string body after its opening quote, up to and including
the closing quote; returns the rest. -/
def pStrBody : Nat → Str → Option Str
| 0, _ => none
| fuel + 1, l =>
  match l with
  | [] => none
  | '"' :: r => some r
  | '\\' :: e :: r =>
    if e = '"' || e = '\\' || e = '/' || e = 'b' || e = 'f' || e = 'n' ||
        e = 'r' || e = 't' then pStrBody fuel r
    else if e = 'u' then
      match r with
      | h1 :: h2 :: h3 :: h4 :: r2 =>
        if isHexC h1 && isHexC h2 && isHexC h3 && isHexC h4 then pStrBody fuel r2
        else none
      | _ => none
    else none
  | c :: r => if c.toNat < 0x20 then none else pStrBody fuel r

/-- Optional fraction and exponent after the integer part of a JSON
number. -/
def pNumTail (r : Str) : Option Str :=
  let r1 : Option Str :=
    match r with
    | '.' :: d :: rest =>
      if isDigitC d then some ((d :: rest).dropWhile isDigitC) else none
    | _ => some r
  match r1 with
  | none => none
  | some r2 =>
    match r2 with
    | e :: rest =>
      if e = 'e' || e = 'E' then
        let rest2 : Str := match rest with
          | '+' :: t => t
          | '-' :: t => t
          | t => t
        match rest2 with
        | d :: t => if isDigitC d then some ((d :: t).dropWhile isDigitC) else none
        | [] => none
      else some r2
    | [] => some []

/-- Consume a JSON number; returns the rest. -/
def pNum (l : Str) : Option Str :=
  let l1 : Str := match l with
    | '-' :: r => r
    | _ => l
  match l1 with
  | '0' :: r => pNumTail r
  | c :: r => if isDigitC c then pNumTail (r.dropWhile isDigitC) else none
  | [] => none

/-- Position of the recursive JSON parser: a value, the members of an
object (`first` when no member has been read yet), or the elements of an
array. -/
inductive PTag where
| pv : PTag
| pobj : Bool → PTag
| parr : Bool → PTag

/-- Recursive-descent JSON recogniser (fuel-indexed); consumes one value /
member list / element list and returns the rest of the input. -/
def pGo : Nat → PTag → Str → Option Str
| 0, _, _ => none
| fuel + 1, .pv, l =>
  let l1 := skipJsonWs l
  match l1 with
  | '\x7b' :: r => pGo fuel (.pobj true) r
  | '[' :: r => pGo fuel (.parr true) r
  | '"' :: r => pStrBody (r.length + 1) r
  | _ =>
    if leadsWith "true".data l1 then some (l1.drop 4)
    else if leadsWith "false".data l1 then some (l1.drop 5)
    else if leadsWith "null".data l1 then some (l1.drop 4)
    else pNum l1
| fuel + 1, .pobj first, l =>
  let l1 := skipJsonWs l
  match l1 with
  | '\x7d' :: r => if first then some r else none
  | '"' :: r =>
    match pStrBody (r.length + 1) r with
    | none => none
    | some r2 =>
      match skipJsonWs r2 with
      | ':' :: r3 =>
        match pGo fuel .pv r3 with
        | none => none
        | some r4 =>
          match skipJsonWs r4 with
          | ',' :: r5 => pGo fuel (.pobj false) r5
          | '\x7d' :: r5 => some r5
          | _ => none
      | _ => none
  | _ => none
| fuel + 1, .parr first, l =>
  let l1 := skipJsonWs l
  match l1 with
  | ']' :: r => if first then some r else none
  | _ =>
    match pGo fuel .pv l1 with
    | none => none
    | some r2 =>
      match skipJsonWs r2 with
      | ',' :: r3 => pGo fuel (.parr false) r3
      | ']' :: r3 => some r3
      | _ => none

/-- Test that `JSON.parse(text)` succeeds: one JSON value surrounded only by
whitespace. -/
def jsonValid (l : Str) : Bool :=
  match pGo (2 * l.length + 2) .pv l with
  | some rest => decide (skipJsonWs rest = ([] : Str))
  | none => false

/-- Outcome of `extractJsonFromText`: the selected JSON text, the
"could not extract JSON" error, or a `JSON.parse` syntax error. -/
inductive ExtractOutcome where
| ok : Str → ExtractOutcome
| extractionFailure : ExtractOutcome
| parseFailure : ExtractOutcome
deriving DecidableEq

/-- Embedding of `extractJsonFromText(text)` from api/critique.js. -/
def extractJsonFromText (s : Str) : ExtractOutcome :=
  match selectedJsonRegion s with
  | none => .extractionFailure
  | some m => if jsonValid m then .ok m else .parseFailure

/-- Balance check for braces: every `\x7d` matches an earlier `\x7b` and
the final depth is zero. -/
def braceBal : Str → Int → Bool
| [], d => decide (d = 0)
| c :: cs, d =>
  if isOpenBrace c then braceBal cs (d + 1)
  else if isCloseBrace c then decide (0 < d) && braceBal cs (d - 1)
  else braceBal cs d

/-- Modelled from the words of the specification (not from the source), for
comparison with `extractJsonFromText`: take the first `{` that begins a
brace-balanced region extending to the last `}` of the text, parse that
region greedily, fall back to the first non-greedy match (first `{` to the
first `}` after it) when the greedy region fails to parse, and fail exactly
when no such region exists or the selected substring is not valid JSON. -/
def claimJsonRegion (s : Str) : ExtractOutcome :=
  match firstIdxAux isOpenBrace s, lastIdxUnder (fun j => closeBraceAt s j) s.length with
  | some i, some j =>
    if i < j && braceBal (sliceIncl s i j) 0 then
      let greedy := sliceIncl s i j
      if jsonValid greedy then .ok greedy
      else
        match firstIdxAux isCloseBrace (s.drop (i + 1)) with
        | some k =>
          let ng := sliceIncl s i (i + 1 + k)
          if jsonValid ng then .ok ng else .extractionFailure
        | none => .extractionFailure
    else .extractionFailure
  | _, _ => .extractionFailure

end Compass

namespace Compass

/-! ## Parsed critique values and the post-parse coercion -/

/- Structured values produced by `JSON.parse`.  Numbers are restricted to
integers: every numeric behaviour the claims mention concerns integer
scores, and an integer JavaScript number stringifies to its decimal
notation.  Arrays and objects are given their own list-like types so that
all functions below are plain structural recursions. -/
mutual

inductive JVal where
| jnull : JVal
| jbool : Bool → JVal
| jnum : Int → JVal
| jstr : Str → JVal
| jarr : JArr → JVal
| jobj : JObj → JVal

inductive JArr where
| anil : JArr
| acons : JVal → JArr → JArr

inductive JObj where
| onil : JObj
| ocons : Str → JVal → JObj → JObj

end

/-- Build an object from a list of properties. -/
def objOf : List (Str × JVal) → JObj
| [] => .onil
| (k, v) :: rest => .ocons k v (objOf rest)

/-- Build an array from a list of values. -/
def arrOf : List JVal → JArr
| [] => .anil
| v :: rest => .acons v (arrOf rest)

/-- Decimal digits of a natural number (fuel-indexed). -/
def natStrAux : Nat → Nat → Str
| 0, _ => []
| fuel + 1, n =>
  if n < 10 then [Char.ofNat (48 + n)]
  else natStrAux fuel (n / 10) ++ [Char.ofNat (48 + n % 10)]

/-- Decimal notation of a natural number. -/
def natStr (n : Nat) : Str := natStrAux (n + 1) n

/-- Decimal notation of an integer. -/
def intStr : Int → Str
| .ofNat n => natStr n
| .negSucc n => '-' :: natStr (n + 1)

/- `String(v)` for a parsed value: array elements are joined with commas
(`null` elements becoming empty), objects print as `[object Object]`. -/
mutual

def jvStr : JVal → Str
| .jnull => "null".data
| .jbool b => if b then "true".data else "false".data
| .jnum n => intStr n
| .jstr s => s
| .jarr a => jaStr a
| .jobj _ => "[object Object]".data

def jaStr : JArr → Str
| .anil => []
| .acons .jnull .anil => []
| .acons v .anil => jvStr v
| .acons .jnull rest => ',' :: jaStr rest
| .acons v rest => jvStr v ++ ',' :: jaStr rest

end

/-- Embedding of `parseInt(s, 10)` on a string: skip leading whitespace, optional sign,
then leading decimal digits; `none` models `NaN`. -/
def jsParseIntStr (s : Str) : Option Int :=
  let t := s.dropWhile jsWs
  let sgn : Bool × Str := match t with
    | '-' :: r => (true, r)
    | '+' :: r => (false, r)
    | _ => (false, t)
  let ds := sgn.2.takeWhile isDigitC
  if ds = [] then none
  else
    let n : Nat := ds.foldl (fun a c => 10 * a + (c.toNat - 48)) 0
    some (if sgn.1 then -(n : Int) else (n : Int))

/-- Embedding of `parseInt(v, 10)` on a field value (`none` is a missing field, read as
`undefined`, whose string `"undefined"` has no digits). -/
def jsParseIntOf : Option JVal → Option Int
| none => jsParseIntStr "undefined".data
| some v => jsParseIntStr (jvStr v)

/-- The score coercion of the handler: `parseInt(x, 10)` then `null` when
the result `isNaN`. -/
def coerceScore (v : Option JVal) : JVal :=
  match jsParseIntOf v with
  | some n => .jnum n
  | none => .jnull

/-- Property read on a parsed object. -/
def lookupField : JObj → Str → Option JVal
| .onil, _ => none
| .ocons k v rest, key => if k = key then some v else lookupField rest key

/-- Property write on a parsed object: overwrite an existing key, create a
new last property otherwise. -/
def setField : JObj → Str → JVal → JObj
| .onil, key, v => .ocons key v .onil
| .ocons k w rest, key, v =>
  if k = key then .ocons k v rest else .ocons k w (setField rest key v)

/-- JavaScript truthiness of a parsed value. -/
def truthy : JVal → Bool
| .jnull => false
| .jbool b => b
| .jnum n => decide (n ≠ 0)
| .jstr s => decide (s ≠ [])
| .jarr _ => true
| .jobj _ => true

def tfKey : Str := "title_feedback".data

def scoreKey : Str := "score".data

def osKey : Str := "overall_score".data

/-- Embedding of `critique.overall_score = parseInt(...)`,
nulled when `NaN`. -/
def setOverall (fs : JObj) : JObj :=
  setField fs osKey (coerceScore (lookupField fs osKey))

/-- The post-parse coercion block of the handler (inside `try { ... } catch
{}`): when `critique.title_feedback` is truthy its `score` property is
coerced, then `overall_score` is coerced.  Writing `.score` to a truthy
primitive raises a `TypeError` in strict mode, which the empty `catch`
swallows with nothing yet mutated; writing it to an array succeeds but the
property is invisible to JSON serialisation, so the serialised critique is
unchanged except for `overall_score`. -/
def formatCritique : JVal → JVal
| .jobj fs =>
  match lookupField fs tfKey with
  | some tv =>
    if truthy tv then
      match tv with
      | .jobj g =>
        let g2 := setField g scoreKey (coerceScore (lookupField g scoreKey))
        let fs1 := setField fs tfKey (.jobj g2)
        .jobj (setOverall fs1)
      | .jarr _ => .jobj (setOverall fs)
      | _ => .jobj fs
    else .jobj (setOverall fs)
  | none => .jobj (setOverall fs)
| v => v

end Compass

namespace Compass

/-! ## Model resolver, static-fallback strategy (`generateWithFallback`) -/

/-- The hard-coded candidate list of `generateWithFallback`. -/
def candidateModels : List Str :=
  ["gemini-1.5-pro-002".data, "gemini-1.5-pro".data, "gemini-1.5-flash-002".data,
   "gemini-1.5-flash".data, "gemini-1.0-pro".data]

/-- ASCII case folding of `toLowerCase()` (the patterns searched for are
ASCII). -/
def jsToLowerChar (c : Char) : Char :=
  if 'A' ≤ c && c ≤ 'Z' then Char.ofNat (c.toNat + 32) else c

def lowerStr (s : Str) : Str := s.map jsToLowerChar

/-- Embedding of `String.prototype.includes`. -/
def isSubstr (pat l : Str) : Bool := l.tails.any (fun t => leadsWith pat t)

/-- Embedding of `isModelNotFoundOrUnsupported(err)` from api/critique.js, on the error
message. -/
def isModelNotFoundOrUnsupported (msg : Str) : Bool :=
  isSubstr "404".data msg ||
  isSubstr "not found".data (lowerStr msg) ||
  isSubstr "is not supported for generatecontent".data (lowerStr msg)

/-- The error thrown when a model answers with empty text. -/
def emptyRespMsg : Str := "AIの応答が空でした。".data

/-- Result of the fallback loop.  `success text model tried` carries the
models tried and failed before the successful one (the `tried` array of the
source, which a success leaves untouched); `fatal` and `exhausted` carry
the thrown message and the tried list. -/
inductive FallbackResult where
| success : Str → Str → List Str → FallbackResult
| fatal : Str → List Str → FallbackResult
| exhausted : List Str → Str → FallbackResult
deriving DecidableEq

/-- The `for (const m of candidateModels)` loop of `generateWithFallback`.
`att prompt m` is the outcome of `model.generateContent` for candidate `m`
(error message, or response text, an empty text being turned into the
thrown `emptyRespMsg` error); the error classifier decides between
advancing and aborting. -/
def fallbackGo (att : Str → Str → Except Str Str) (prompt : Str) :
    List Str → List Str → Str → FallbackResult
| [], tried, lastErr => .exhausted tried lastErr
| m :: rest, tried, _ =>
  let step : Except Str Str :=
    match att prompt m with
    | .ok out => if out = [] then .error emptyRespMsg else .ok out
    | .error e => .error e
  match step with
  | .ok out => .success out m tried
  | .error e =>
    if isModelNotFoundOrUnsupported e then fallbackGo att prompt rest (tried ++ [m]) e
    else .fatal e (tried ++ [m])

/-- Embedding of `generateWithFallback(genAI, prompt)`: try `candidateModels` in order. -/
def generateWithFallback (att : Str → Str → Except Str Str) (prompt : Str) :
    FallbackResult :=
  fallbackGo att prompt candidateModels [] []

/-- A candidate error outcome lets the loop advance: it is an error whose
message is classified as model-not-found / method-unsupported. -/
def skipsCandidate (o : Except Str Str) : Bool :=
  match o with
  | .ok _ => false
  | .error e => isModelNotFoundOrUnsupported e

end Compass

namespace Compass

/-! ## Model resolver, capability-discovery strategy (`pickBestModel`) -/

/-- One entry of the `ListModels` answer, with the two fields
`pickBestModel` reads. -/
structure GModelInfo where
  name : Str
  supportedGenerationMethods : List Str
deriving DecidableEq

def gcMethod : Str := "generateContent".data

/-- The priority list of `pickBestModel`. -/
def preferredModels : List Str :=
  ["gemini-1.5-pro-002".data, "gemini-1.5-pro".data, "gemini-1.5-flash-002".data,
   "gemini-1.5-flash".data, "gemini-1.0-pro".data, "gemini-pro".data]

/-- Embedding of `String.prototype.endsWith`. -/
def endsWithStr (suf l : Str) : Bool := leadsWith suf.reverse l.reverse

def modelsSep : Str := "/models/".data

/-- Embedding of `s.split("/models/")` (fuel-indexed scan; leftmost, non-overlapping). -/
def splitModelsGo : Nat → Str → List Str
| 0, l => [l]
| _ + 1, [] => [[]]
| fuel + 1, c :: cs =>
  if leadsWith modelsSep (c :: cs) then
    [] :: splitModelsGo fuel ((c :: cs).drop modelsSep.length)
  else
    match splitModelsGo fuel cs with
    | [] => [[c]]
    | p :: ps => (c :: p) :: ps

/-- Embedding of `s.split("/models/")`. -/
def splitModels (l : Str) : List Str := splitModelsGo l.length l

/-- Embedding of `n.includes("/models/") ? n.split("/models/")[1] : n` — the name
returned by `pickBestModel` for a chosen entry name `n`. -/
def stripModelsPath (n : Str) : Str :=
  if isSubstr modelsSep n then ((splitModels n).getD 1 []) else n

/-- The match test of the preferred-name walk:
`m.name === name || m.name?.endsWith(`/models/${name}`)`. -/
def prefMatches (m : GModelInfo) (name : Str) : Bool :=
  decide (m.name = name) || endsWithStr (modelsSep ++ name) m.name

/-- The walk over the priority list: the first preferred name with a match
yields the matched entry's `name`. -/
def findPreferredIn (usable : List GModelInfo) : List Str → Option Str
| [] => none
| name :: rest =>
  match usable.find? (fun m => prefMatches m name) with
  | some found => some found.name
  | none => findPreferredIn usable rest

/-- The filter of `pickBestModel`:
`(m.supportedGenerationMethods || []).includes("generateContent")`. -/
def supportsGC (m : GModelInfo) : Bool :=
  m.supportedGenerationMethods.any (fun x => decide (x = gcMethod))

/-- Embedding of `pickBestModel(models)` from the capability-discovery variant:
filter to completion-capable entries, walk the priority list (exact name or
`/models/<name>` suffix), fall back to the first usable entry, `null` when
none. -/
def pickBestModel (models : List GModelInfo) : Option Str :=
  let usable := models.filter supportsGC
  match findPreferredIn usable preferredModels with
  | some n => some (stripModelsPath n)
  | none =>
    match usable with
    | [] => none
    | m :: _ => some (stripModelsPath m.name)

/-- Modelled from the words of the claim (not from the source), for
comparison with `pickBestModel`: return the first *preferred name* that
matches a filtered model, else the first filtered entry, failing exactly
when the filtered set is empty. -/
def claimPickModel (models : List GModelInfo) : Option Str :=
  let usable := models.filter supportsGC
  match (preferredModels.filter (fun name => usable.any (fun m => prefMatches m name))) with
  | name :: _ => some name
  | [] =>
    match usable with
    | [] => none
    | m :: _ => some m.name

end Compass

namespace Compass

/-! ## Article extractor (`extractArticle`) -/

/- A parsed HTML document, at the level cheerio exposes it to
`extractArticle`: a tree of elements (lower-cased tag name, attribute list,
children) and text nodes.  The mutual list type keeps every function a
plain structural recursion. -/
mutual

inductive HNode where
| htext : Str → HNode
| helem : Str → List (Str × Str) → HForest → HNode

inductive HForest where
| fnil : HForest
| fcons : HNode → HForest → HForest

end

/-- Build a forest from a list of nodes. -/
def forestOf : List HNode → HForest
| [] => .fnil
| n :: ns => .fcons n (forestOf ns)

/-- First value of an attribute. -/
def lookupAttr (attrs : List (Str × Str)) (k : Str) : Option Str :=
  match attrs.find? (fun p => decide (p.1 = k)) with
  | some p => some p.2
  | none => none

/-- HTML attribute whitespace, separating class names. -/
def isHtmlWsC (c : Char) : Bool :=
  c = ' ' || c = '\t' || c = '\n' || c = '\r' || c = '\x0c'

/-- Split a `class` attribute value on whitespace runs (fuel-indexed). -/
def classListGo : Nat → Str → List Str
| 0, _ => []
| _ + 1, [] => []
| fuel + 1, c :: cs =>
  if isHtmlWsC c then classListGo fuel cs
  else
    (c :: cs.takeWhile (fun d => !isHtmlWsC d)) ::
      classListGo fuel (cs.dropWhile (fun d => !isHtmlWsC d))

/-- The class names of a `class` attribute value. -/
def classList (s : Str) : List Str := classListGo s.length s

/-- The selectors used by the noise sweep: plain tag selectors and class
selectors. -/
inductive CssSel where
| tagSel : Str → CssSel
| classSel : Str → CssSel
deriving DecidableEq

/-- Whether an element (tag, attributes) matches a selector. -/
def selMatches : CssSel → Str → List (Str × Str) → Bool
| .tagSel t, tag, _ => decide (tag = t)
| .classSel c, _, attrs =>
  match lookupAttr attrs "class".data with
  | some v => (classList v).any (fun w => decide (w = c))
  | none => false

/- `$(sel).remove()`: drop every element (with its whole subtree) whose
tag/attributes satisfy `p`. -/
mutual

def pruneN (p : Str → List (Str × Str) → Bool) : HNode → Option HNode
| .htext s => some (.htext s)
| .helem tag attrs cs =>
  if p tag attrs then none else some (.helem tag attrs (pruneF p cs))

def pruneF (p : Str → List (Str × Str) → Bool) : HForest → HForest
| .fnil => .fnil
| .fcons n f =>
  match pruneN p n with
  | none => pruneF p f
  | some n2 => .fcons n2 (pruneF p f)

end

/-- The noise set removed before extraction:
`["header", "nav", "footer", "aside", ".sidebar", ".ads", ".advertisement"]`. -/
def noiseSelectors : List CssSel :=
  [.tagSel "header".data, .tagSel "nav".data, .tagSel "footer".data,
   .tagSel "aside".data, .classSel "sidebar".data, .classSel "ads".data,
   .classSel "advertisement".data]

/-- The `forEach` sweep removing each noise selector in turn. -/
def cleanNoise (doc : HForest) : HForest :=
  noiseSelectors.foldl (fun d sel => pruneF (selMatches sel) d) doc

/- `.text()`: concatenated text of all descendant text nodes, in document
order. -/
mutual

def textN : HNode → Str
| .htext s => s
| .helem _ _ cs => textF cs

def textF : HForest → Str
| .fnil => []
| .fcons n f => textN n ++ textF f

end

/- `$(pred)`: all elements satisfying `pred`, in document (pre-)order,
nested matches included. -/
mutual

def queryN (p : Str → List (Str × Str) → Bool) : HNode → List HNode
| .htext _ => []
| .helem tag attrs cs =>
  (if p tag attrs then [.helem tag attrs cs] else []) ++ queryF p cs

def queryF (p : Str → List (Str × Str) → Bool) : HForest → List HNode
| .fnil => []
| .fcons n f => queryN p n ++ queryF p f

end

/- Whether some element of the tree satisfies `p` (the truth of
`$(pred).length`). -/
mutual

def anyN (p : Str → List (Str × Str) → Bool) : HNode → Bool
| .htext _ => false
| .helem tag attrs cs => p tag attrs || anyF p cs

def anyF (p : Str → List (Str × Str) → Bool) : HForest → Bool
| .fnil => false
| .fcons n f => anyN p n || anyF p f

end

/-- Embedding of `$(pred).first().text()` (empty for an empty selection). -/
def firstMatchText (p : Str → List (Str × Str) → Bool) (d : HForest) : Str :=
  match queryF p d with
  | [] => []
  | n :: _ => textN n

/-- Embedding of `$(pred).attr(k)`: the attribute of the first matched element
(`none` both for an empty selection and for a missing attribute). -/
def firstMatchAttr (p : Str → List (Str × Str) → Bool) (d : HForest) (k : Str) :
    Option Str :=
  match queryF p d with
  | .helem _ attrs _ :: _ => lookupAttr attrs k
  | _ => none

/-- The JavaScript `||` on strings, empty = falsy. -/
def jsOrStr (a b : Str) : Str := if a = [] then b else a

/-- Tag-selector predicate. -/
def isTagP (t : Str) (tag : Str) (_ : List (Str × Str)) : Bool := decide (tag = t)

/-- Selector `meta[property='og:title']`. -/
def isOgTitleMeta (tag : Str) (attrs : List (Str × Str)) : Bool :=
  decide (tag = "meta".data) &&
    decide (lookupAttr attrs "property".data = some "og:title".data)

structure Article where
  title : Str
  body : Str
deriving DecidableEq

/-- The title chain of `extractArticle`:
`$("h1").first().text().trim() || $("meta[property='og:title']").attr("content")
|| $("title").first().text().trim() || ""`. -/
def extractTitle (d : HForest) : Str :=
  jsOrStr (jsTrim (firstMatchText (isTagP "h1".data) d))
    (jsOrStr ((firstMatchAttr isOgTitleMeta d "content".data).getD [])
      (jsTrim (firstMatchText (isTagP "title".data) d)))

/-- The trimmed, non-empty paragraph texts, in document order. -/
def paraTexts (d : HForest) : List Str :=
  ((queryF (isTagP "p".data) d).map (fun n => jsTrim (textN n))).filter
    (fun t => decide (t ≠ []))

/-- The body chain of `extractArticle`: `<article>` text when an
`<article>` exists, else `<main>` text when a `<main>` exists, else the
non-empty trimmed paragraph texts joined with a blank line. -/
def extractBody (d : HForest) : Str :=
  if !(queryF (isTagP "article".data) d).isEmpty then
    firstMatchText (isTagP "article".data) d
  else if !(queryF (isTagP "main".data) d).isEmpty then
    firstMatchText (isTagP "main".data) d
  else
    List.intercalate "\n\n".data (paraTexts d)

/-- Title and body read off a document that has already had the noise sweep
applied, with the final `|| ""` / `.trim()` of the returned record. -/
def extractCore (d : HForest) : Article :=
  { title := extractTitle d, body := jsTrim (extractBody d) }

/-- Embedding of `extractArticle(html)` on the parsed document: noise sweep, then title
and body resolution. -/
def extractArticle (doc : HForest) : Article := extractCore (cleanNoise doc)

/-- First non-empty string of a candidate list (empty when none). -/
def firstNonNilStr : List Str → Str
| [] => []
| s :: rest => if s = [] then firstNonNilStr rest else s

/-- Modelled from the words of the claim (not from the source), for
comparison with `extractBody`: the first body *tier that yields non-empty
content* — `<article>` text, `<main>` text, paragraph join. -/
def claimBodyByContent (doc : HForest) : Str :=
  let d := cleanNoise doc
  firstNonNilStr
    [jsTrim (firstMatchText (isTagP "article".data) d),
     jsTrim (firstMatchText (isTagP "main".data) d),
     jsTrim (List.intercalate "\n\n".data (paraTexts d))]

end Compass


namespace Compass

/-! ## Definitions used only by theorem statements -/

/-- Predicate: `m` occurs contiguously inside `l`. -/
def SubSeg (m l : Str) : Prop := ∃ u v, u ++ m ++ v = l

/-- The first character, if any, is not whitespace. -/
def headWsFree (l : Str) : Bool :=
  match l.head? with
  | none => true
  | some c => !jsWs c

/-- The last character, if any, is not whitespace. -/
def lastWsFree (l : Str) : Bool :=
  match l.getLast? with
  | none => true
  | some c => !jsWs c

/-- The `title_feedback` values on which the coercion block does not throw:
absent, falsy, an object, or an array. -/
def tfSafe : Option JVal → Bool
| none => true
| some (.jobj _) => true
| some (.jarr _) => true
| some v => !truthy v

end Compass

namespace Compass

/-! # THEOREMS -/

/-! ## Newline bookkeeping for the text normalizer -/

theorem jsWs_nl : jsWs '\n' = true := by decide

theorem not_nl_of_not_ws {c : Char} (h : jsWs c = false) : decide (c = '\n') = false := by
  cases hc : decide (c = '\n') with
  | false => rfl
  | true =>
    have : c = '\n' := of_decide_eq_true hc
    subst this
    rw [jsWs_nl] at h
    cases h

theorem hasDNl_cons (a : Char) (l : Str) :
    hasDNl (a :: l) =
      ((decide (a = '\n') && decide (l.head? = some '\n')) || hasDNl l) := by
  cases l with
  | nil => simp [hasDNl]
  | cons b bs => simp [hasDNl]

theorem hasDNl_append (x y : Str) :
    hasDNl (x ++ y) =
      (hasDNl x || hasDNl y ||
        (decide (x.getLast? = some '\n') && decide (y.head? = some '\n'))) := by
  induction x with
  | nil => simp [hasDNl]
  | cons a x ih =>
    cases x with
    | nil =>
      simp [hasDNl_cons, hasDNl]
      cases decide (a = '\n') <;> cases hasDNl y <;> simp
    | cons b x2 =>
      rw [List.cons_append, hasDNl_cons, ih,
        show hasDNl (a :: b :: x2) =
          ((decide (a = '\n') && decide ((b :: x2).head? = some '\n')) ||
            hasDNl (b :: x2)) from hasDNl_cons a (b :: x2)]
      simp only [List.getLast?_cons_cons, List.head?_cons, List.cons_append]
      cases decide (a = '\n') && decide (b = '\n') <;>
        cases hasDNl (b :: x2) <;> cases hasDNl y <;>
        cases decide ((b :: x2).getLast? = some '\n') &&
          decide (y.head? = some '\n') <;> simp [Bool.or_assoc]

theorem noNl_noD {l : Str} (h : ∀ x ∈ l, decide (x = '\n') = false) :
    hasDNl l = false := by
  induction l with
  | nil => rfl
  | cons a as ih =>
    rw [hasDNl_cons]
    have ha := h a (by simp)
    simp [ha, ih (fun x hx => h x (by simp [hx]))]

theorem tripleFalse_of_noD {l : Str} (h : hasDNl l = false) :
    hasTripleNl l = false := by
  induction l with
  | nil => rfl
  | cons a as ih =>
    rw [hasDNl_cons] at h
    rcases Bool.or_eq_false_iff.mp h with ⟨h1, h2⟩
    cases as with
    | nil => rfl
    | cons b bs =>
      cases bs with
      | nil => rfl
      | cons c cs =>
        have hb : decide ((b :: c :: cs).head? = some '\n') = decide (b = '\n') := by simp
        rw [hb] at h1
        have h3 := ih h2
        show ((decide (a = '\n') && decide (b = '\n') && decide (c = '\n')) ||
            hasTripleNl (b :: c :: cs)) = false
        rcases Bool.and_eq_false_iff.mp h1 with h1a | h1b
        · simp [h1a, h3]
        · simp [h1b, h3]

theorem mem_afterLastNl {l : Str} {x : Char} (h : x ∈ afterLastNl l) :
    decide (x = '\n') = false := by
  unfold afterLastNl at h
  rw [List.mem_reverse] at h
  have := List.mem_takeWhile_imp h
  simpa using this

theorem collapseGo_head_nws :
    ∀ (fuel : Nat) (l : Str), (∀ c, l.head? = some c → jsWs c = false) →
      ∀ c, (collapseGo fuel l).head? = some c → jsWs c = false := by
  intro fuel l hl c hc
  match fuel, l with
  | 0, l => exact hl c hc
  | _ + 1, [] => simp [collapseGo] at hc
  | n + 1, d :: ds =>
    have hd : jsWs d = false := hl d rfl
    rw [collapseGo] at hc
    simp only [hd, Bool.false_eq_true, if_false, List.head?_cons,
      Option.some.injEq] at hc
    exact hc ▸ hd

theorem collapseGo_noD :
    ∀ (fuel : Nat) (l : Str), l.length ≤ fuel →
      hasDNl (collapseGo fuel l) = false := by
  intro fuel
  induction fuel with
  | zero =>
    intro l hl
    have : l = [] := by cases l <;> simp_all
    subst this
    rfl
  | succ n ih =>
    intro l hl
    match l with
    | [] => rfl
    | c :: cs =>
      have hcs : cs.length ≤ n := by simpa using hl
      rw [collapseGo]
      by_cases hws : jsWs c = true
      · simp only [hws, if_true]
        have hrest : (cs.dropWhile jsWs).length ≤ n :=
          le_trans ((List.dropWhile_sublist jsWs).length_le) hcs
        have hC : hasDNl (collapseGo n (cs.dropWhile jsWs)) = false := ih _ hrest
        have hCh : ∀ e, (collapseGo n (cs.dropWhile jsWs)).head? = some e →
            jsWs e = false := by
          intro e he
          refine collapseGo_head_nws n _ ?_ e he
          intro d hd
          have := List.head?_dropWhile_not jsWs cs
          rw [hd] at this
          simpa using this
        by_cases hnl : (cs.takeWhile jsWs).any (fun d => decide (d = '\n')) = true
        · simp only [hnl, if_true]
          rw [hasDNl_cons, hasDNl_append]
          have hA : ∀ x ∈ afterLastNl (c :: cs.takeWhile jsWs), decide (x = '\n') = false :=
            fun x hx => mem_afterLastNl hx
          have hAd : hasDNl (afterLastNl (c :: cs.takeWhile jsWs)) = false := noNl_noD hA
          have hAl : decide ((afterLastNl (c :: cs.takeWhile jsWs)).getLast? =
              some '\n') = false := by
            cases hgl : (afterLastNl (c :: cs.takeWhile jsWs)).getLast? with
            | none => simp
            | some x =>
              have hx : x ∈ afterLastNl (c :: cs.takeWhile jsWs) :=
                List.mem_of_mem_getLast? (by rw [hgl]; rfl)
              have := hA x hx
              simp only [decide_eq_false_iff_not] at this ⊢
              intro hh
              exact this (by injection hh)
          have hhead : decide ((afterLastNl (c :: cs.takeWhile jsWs) ++
              collapseGo n (cs.dropWhile jsWs)).head? = some '\n') = false := by
            rw [List.head?_append]
            cases hA2 : afterLastNl (c :: cs.takeWhile jsWs) with
            | nil =>
              simp only [List.head?_nil, Option.none_or]
              cases hCh2 : (collapseGo n (cs.dropWhile jsWs)).head? with
              | none => simp
              | some e =>
                have := hCh e hCh2
                have : decide (e = '\n') = false := not_nl_of_not_ws this
                simp only [decide_eq_false_iff_not] at this ⊢
                intro hh
                exact this (by injection hh)
            | cons x xs =>
              have hx : x ∈ afterLastNl (c :: cs.takeWhile jsWs) := by
                rw [hA2]; simp
              have := hA x hx
              simp only [decide_eq_false_iff_not] at this ⊢
              intro hh
              rw [List.head?_cons, Option.or_some] at hh
              exact this (by injection hh)
          rw [hhead, hAd, hC, hAl]
          simp
        · have hnlm : '\n' ∉ cs.takeWhile jsWs := by simpa using hnl
          have hRun : ∀ x ∈ cs.takeWhile jsWs, decide (x = '\n') = false := by
            intro x hx
            simp only [decide_eq_false_iff_not]
            intro h
            exact hnlm (h ▸ hx)
          have hnl2 : ((cs.takeWhile jsWs).any fun d => decide (d = '\n')) = false := by
            rw [List.any_eq_false]
            intro x hx
            simp [hRun x hx]
          simp only [hnl2, Bool.false_eq_true, if_false]
          rw [hasDNl_cons, hasDNl_append]
          have hRd : hasDNl (cs.takeWhile jsWs) = false := noNl_noD hRun
          have hRl : decide ((cs.takeWhile jsWs).getLast? = some '\n') = false := by
            cases hgl : (cs.takeWhile jsWs).getLast? with
            | none => simp
            | some x =>
              have hx : x ∈ cs.takeWhile jsWs :=
                List.mem_of_mem_getLast? (by rw [hgl]; rfl)
              have := hRun x hx
              simp only [decide_eq_false_iff_not] at this ⊢
              intro hh
              exact this (by injection hh)
          have hhead : decide ((cs.takeWhile jsWs ++
              collapseGo n (cs.dropWhile jsWs)).head? = some '\n') = false := by
            rw [List.head?_append]
            cases hR2 : cs.takeWhile jsWs with
            | nil =>
              simp only [List.head?_nil, Option.none_or]
              cases hCh2 : (collapseGo n (cs.dropWhile jsWs)).head? with
              | none => simp
              | some e =>
                have := not_nl_of_not_ws (hCh e hCh2)
                simp only [decide_eq_false_iff_not] at this ⊢
                intro hh
                exact this (by injection hh)
            | cons x xs =>
              have hx : x ∈ cs.takeWhile jsWs := by rw [hR2]; simp
              have := hRun x hx
              simp only [decide_eq_false_iff_not] at this ⊢
              intro hh
              rw [List.head?_cons, Option.or_some] at hh
              exact this (by injection hh)
          rw [hhead, hRd, hC, hRl]
          simp
      · have hws' : jsWs c = false := by simpa using hws
        simp only [hws', Bool.false_eq_true, if_false]
        rw [hasDNl_cons]
        simp [not_nl_of_not_ws hws', ih cs hcs]

theorem collapseWs_noD (l : Str) : hasDNl (collapseWs l) = false :=
  collapseGo_noD l.length l le_rfl

end Compass

namespace Compass

theorem squeezeGo_id :
    ∀ (fuel : Nat) (l : Str), l.length ≤ fuel → hasDNl l = false →
      squeezeGo fuel l = l := by
  intro fuel
  induction fuel with
  | zero => intro l _ _; rfl
  | succ n ih =>
    intro l hl hd
    match l with
    | [] => rfl
    | c :: cs =>
      have hcs : cs.length ≤ n := by simpa using hl
      rw [hasDNl_cons] at hd
      rcases Bool.or_eq_false_iff.mp hd with ⟨h1, h2⟩
      rw [squeezeGo]
      by_cases hc : decide (c = '\n') = true
      · have hch : decide (cs.head? = some '\n') = false := by
          rcases Bool.and_eq_false_iff.mp h1 with h | h
          · rw [hc] at h; cases h
          · exact h
        have hrun : cs.takeWhile (fun d => decide (d = '\n')) = [] := by
          cases cs with
          | nil => rfl
          | cons d ds =>
            have : decide (d = '\n') = false := by
              simp only [List.head?_cons] at hch
              simpa using hch
            simp [List.takeWhile_cons, this]
        have hrest : cs.dropWhile (fun d => decide (d = '\n')) = cs := by
          cases cs with
          | nil => rfl
          | cons d ds =>
            have : decide (d = '\n') = false := by
              simp only [List.head?_cons] at hch
              simpa using hch
            simp [List.dropWhile_cons, this]
        simp only [hc, if_true, hrun, hrest, List.length_nil]
        simp [ih cs hcs h2]
      · have hc' : decide (c = '\n') = false := by simpa using hc
        simp only [hc', Bool.false_eq_true, if_false]
        rw [ih cs hcs h2]

theorem squeezeNl_id {l : Str} (h : hasDNl l = false) : squeezeNl l = l :=
  squeezeGo_id l.length l le_rfl h

/-- The list `dropTrailWs l` is what remains of `l` before its trailing whitespace. -/
theorem dropTrailWs_decomp (l : Str) :
    dropTrailWs l ++ (l.reverse.takeWhile jsWs).reverse = l := by
  unfold dropTrailWs
  rw [← List.reverse_append, List.takeWhile_append_dropWhile, List.reverse_reverse]

theorem noD_appL {x y : Str} (h : hasDNl (x ++ y) = false) : hasDNl x = false := by
  rw [hasDNl_append] at h
  rcases Bool.or_eq_false_iff.mp h with ⟨h1, _⟩
  exact (Bool.or_eq_false_iff.mp h1).1

theorem noD_appR {x y : Str} (h : hasDNl (x ++ y) = false) : hasDNl y = false := by
  rw [hasDNl_append] at h
  rcases Bool.or_eq_false_iff.mp h with ⟨h1, _⟩
  exact (Bool.or_eq_false_iff.mp h1).2

theorem jsTrim_noD {l : Str} (h : hasDNl l = false) : hasDNl (jsTrim l) = false := by
  unfold jsTrim
  have h1 : hasDNl (l.dropWhile jsWs) = false := by
    have := List.takeWhile_append_dropWhile (p := jsWs) (l := l)
    rw [← this] at h
    exact noD_appR h
  have h2 := dropTrailWs_decomp (l.dropWhile jsWs)
  rw [← h2] at h1
  exact noD_appL h1

theorem jsTrim_head {l : Str} {c : Char} (h : (jsTrim l).head? = some c) :
    jsWs c = false := by
  unfold jsTrim at h
  have h2 := dropTrailWs_decomp (l.dropWhile jsWs)
  have h3 : (l.dropWhile jsWs).head? = some c := by
    rw [← h2, List.head?_append, h, Option.or_some]
  have h4 := List.head?_dropWhile_not jsWs l
  rw [h3] at h4
  exact h4

theorem jsTrim_getLast {l : Str} {c : Char} (h : (jsTrim l).getLast? = some c) :
    jsWs c = false := by
  unfold jsTrim dropTrailWs at h
  rw [List.getLast?_reverse] at h
  have h4 := List.head?_dropWhile_not jsWs (l.dropWhile jsWs).reverse
  rw [h] at h4
  exact h4

theorem noD_take {l : Str} (n : Nat) (h : hasDNl l = false) :
    hasDNl (l.take n) = false := by
  have := List.take_append_drop n l
  rw [← this] at h
  exact noD_appL h

theorem hasTripleNl_cons (a : Char) (l : Str) :
    hasTripleNl (a :: l) =
      ((decide (a = '\n') && decide (l.take 2 = ['\n', '\n'])) || hasTripleNl l) := by
  cases l with
  | nil => simp [hasTripleNl]
  | cons b bs =>
    cases bs with
    | nil => simp [hasTripleNl]
    | cons c cs =>
      show ((decide (a = '\n') && decide (b = '\n') && decide (c = '\n')) ||
          hasTripleNl (b :: c :: cs)) = _
      simp only [List.take_succ_cons, List.take_zero]
      by_cases hb : b = '\n' <;> by_cases hc : c = '\n' <;>
        simp [hb, hc, Bool.and_assoc]

theorem take2_head {l : Str} (h : l.take 2 = ['\n', '\n']) :
    l.head? = some '\n' := by
  cases l with
  | nil => simp at h
  | cons a as =>
    simp only [List.take_succ_cons, List.cons.injEq] at h
    simp [h.1]

/-- A trailing marker starting with one newline followed by newline-free
text cannot complete a triple newline after newline-pair-free text. -/
theorem tripleApp {A m : Str} (hA : hasDNl A = false)
    (hm : ∀ x ∈ m, decide (x = '\n') = false) :
    hasTripleNl (A ++ '\n' :: m) = false := by
  induction A with
  | nil =>
    rw [List.nil_append, hasTripleNl_cons]
    have hmt : hasTripleNl m = false := tripleFalse_of_noD (noNl_noD hm)
    have h2 : decide (m.take 2 = ['\n', '\n']) = false := by
      simp only [decide_eq_false_iff_not]
      intro he
      have h3 : ('\n' : Char) ∈ m.take 2 := by rw [he]; simp
      have := hm '\n' (List.mem_of_mem_take h3)
      simp at this
    simp [h2, hmt]
  | cons a A2 ih =>
    rw [hasDNl_cons] at hA
    rcases Bool.or_eq_false_iff.mp hA with ⟨h1, h2⟩
    have ihm := ih h2
    rw [List.cons_append, hasTripleNl_cons, ihm]
    by_cases ha : decide (a = '\n') = true
    · have ht : decide ((A2 ++ '\n' :: m).take 2 = ['\n', '\n']) = false := by
        cases A2 with
        | nil =>
          simp only [List.nil_append, List.take_succ_cons]
          cases m with
          | nil => simp
          | cons b bs =>
            have hb := hm b (by simp)
            simp only [List.take_succ_cons, List.take_zero,
              decide_eq_false_iff_not, List.cons.injEq]
            intro hcontra
            rw [hcontra.2.1] at hb
            simp at hb
        | cons x A3 =>
          rw [ha] at h1
          simp only [Bool.true_and, List.head?_cons] at h1
          simp only [List.cons_append, List.take_succ_cons,
            decide_eq_false_iff_not, List.cons.injEq]
          intro hcontra
          rw [hcontra.1] at h1
          simp at h1
      simp [ht]
    · have ha' : decide (a = '\n') = false := by simpa using ha
      simp [ha']

end Compass

namespace Compass

theorem headWsFree_of (l : Str)
    (h : ∀ c, l.head? = some c → jsWs c = false) : headWsFree l = true := by
  unfold headWsFree
  cases hl : l.head? with
  | none => rfl
  | some c => simp [h c hl]

theorem lastWsFree_of (l : Str)
    (h : ∀ c, l.getLast? = some c → jsWs c = false) : lastWsFree l = true := by
  unfold lastWsFree
  cases hl : l.getLast? with
  | none => rfl
  | some c => simp [h c hl]

theorem sanitizeCore_eq (s : Str) : sanitizeCore s = jsTrim (collapseWs s) := by
  unfold sanitizeCore
  rw [squeezeNl_id (collapseWs_noD s)]

theorem sanitizeCore_noD (s : Str) : hasDNl (sanitizeCore s) = false := by
  rw [sanitizeCore_eq]
  exact jsTrim_noD (collapseWs_noD s)

theorem sanitizeCore_head {s : Str} {c : Char}
    (h : (sanitizeCore s).head? = some c) : jsWs c = false := by
  rw [sanitizeCore_eq] at h
  exact jsTrim_head h

theorem sanitizeCore_last {s : Str} {c : Char}
    (h : (sanitizeCore s).getLast? = some c) : jsWs c = false := by
  rw [sanitizeCore_eq] at h
  exact jsTrim_getLast h

theorem truncMarker_tail_noNl :
    ∀ x ∈ "…(省略)".data, decide (x = '\n') = false := by decide

theorem truncMarker_eq : truncMarker = '\n' :: "…(省略)".data := rfl

/-- The normalized output of `sanitizeText`, truncated or not, never has
whitespace at either end nor three consecutive newlines, for any positive
maximum length. -/
theorem sanitizeText_shape (s : Str) (mx : Nat) (hmx : 1 ≤ mx) :
    headWsFree (sanitizeText s mx) = true ∧
    lastWsFree (sanitizeText s mx) = true ∧
    hasTripleNl (sanitizeText s mx) = false := by
  by_cases hs : s = []
  · subst hs
    exact ⟨rfl, rfl, rfl⟩
  · have hnoD := sanitizeCore_noD s
    unfold sanitizeText
    simp only [hs, if_false]
    by_cases htr : mx < (sanitizeCore s).length
    · simp only [htr, if_true]
      refine ⟨?_, ?_, ?_⟩
      · apply headWsFree_of
        intro c hc
        have htne : sanitizeCore s ≠ [] := by
          intro h
          rw [h] at htr
          simp at htr
        cases htt : sanitizeCore s with
        | nil => exact absurd htt htne
        | cons a t2 =>
          have hmx' : ∃ k, mx = k + 1 := ⟨mx - 1, by omega⟩
          rcases hmx' with ⟨k, rfl⟩
          rw [htt] at hc
          rw [List.take_succ_cons, List.cons_append, List.head?_cons,
            Option.some.injEq] at hc
          subst hc
          exact sanitizeCore_head (by rw [htt]; rfl)
      · apply lastWsFree_of
        intro c hc
        rw [List.getLast?_append] at hc
        rw [show truncMarker.getLast? = some ')' from rfl] at hc
        rw [Option.or_some, Option.some.injEq] at hc
        subst hc
        decide
      · rw [truncMarker_eq]
        exact tripleApp (noD_take mx hnoD) truncMarker_tail_noNl
    · simp only [htr, if_false]
      refine ⟨?_, ?_, tripleFalse_of_noD hnoD⟩
      · exact headWsFree_of _ (fun c hc => sanitizeCore_head hc)
      · exact lastWsFree_of _ (fun c hc => sanitizeCore_last hc)

end Compass

namespace Compass

/-- Claim C7: for every input string `s`, the normalized output
`sanitizeText(s)` (default maximum 8000) has no leading or trailing
whitespace and never contains three or more consecutive newline
characters, including when the output was truncated and the truncation
marker appended. -/
theorem c7_normalized_shape (s : Str) :
    headWsFree (sanitizeText s 8000) = true ∧
    lastWsFree (sanitizeText s 8000) = true ∧
    hasTripleNl (sanitizeText s 8000) = false :=
  sanitizeText_shape s 8000 (by omega)

/-- Claim C8: for every input string and maximum length, the output length
of `sanitizeText` never exceeds the maximum plus the marker length;
truncation always leaves the truncation marker as a suffix; empty or
undefined input yields the empty string. -/
theorem c8_normalize_length (s : Str) (mx : Nat) :
    (sanitizeText s mx).length ≤ mx + truncMarker.length ∧
    (mx < (sanitizeCore s).length → s ≠ [] →
      ∃ u, sanitizeText s mx = u ++ truncMarker) ∧
    sanitizeText [] mx = [] ∧ sanitizeField none mx = [] := by
  refine ⟨?_, ?_, rfl, rfl⟩
  · unfold sanitizeText
    by_cases hs : s = []
    · simp [hs]
    · simp only [hs, if_false]
      by_cases htr : mx < (sanitizeCore s).length
      · simp only [htr, if_true, List.length_append, List.length_take]
        omega
      · simp only [htr, if_false]
        omega
  · intro htr hs
    unfold sanitizeText
    simp only [hs, if_false, htr, if_true]
    exact ⟨(sanitizeCore s).take mx, rfl⟩

/-- Witness for C8 at a concrete truncating input. -/
theorem c8_normalize_length_witness :
    2 < (sanitizeCore "aaaaa".data).length ∧ "aaaaa".data ≠ [] ∧
    ∃ u, sanitizeText "aaaaa".data 2 = u ++ truncMarker :=
  ⟨by decide, by decide,
    (c8_normalize_length "aaaaa".data 2).2.1 (by decide) (by decide)⟩

theorem collapseGo_ws_only :
    ∀ (fuel : Nat) (l : Str), (∀ c ∈ l, jsWs c = true) →
      ∀ c ∈ collapseGo fuel l, jsWs c = true := by
  intro fuel
  induction fuel with
  | zero => intro l hl; exact hl
  | succ n ih =>
    intro l hl
    match l with
    | [] => intro c hc; cases hc
    | c :: cs =>
      have hc0 : jsWs c = true := hl c (by simp)
      have hcs : ∀ d ∈ cs, jsWs d = true := fun d hd => hl d (by simp [hd])
      have hrest : ∀ d ∈ cs.dropWhile jsWs, jsWs d = true :=
        fun d hd => hcs d (List.dropWhile_sublist jsWs |>.mem hd)
      rw [collapseGo]
      simp only [hc0, if_true]
      by_cases hnl : (cs.takeWhile jsWs).any (fun d => decide (d = '\n')) = true
      · simp only [hnl, if_true]
        intro x hx
        rcases List.mem_cons.mp hx with rfl | hx2
        · exact jsWs_nl
        · rcases List.mem_append.mp hx2 with hx3 | hx3
          · unfold afterLastNl at hx3
            rw [List.mem_reverse] at hx3
            have hx4 := List.takeWhile_subset _ hx3
            rw [List.mem_reverse] at hx4
            rcases List.mem_cons.mp hx4 with rfl | hx5
            · exact hc0
            · exact hcs x (List.takeWhile_subset _ hx5)
          · exact ih _ hrest x hx3
      · simp only [hnl, if_false]
        intro x hx
        rcases List.mem_cons.mp hx with rfl | hx2
        · exact hc0
        · rcases List.mem_append.mp hx2 with hx3 | hx3
          · exact hcs x (List.takeWhile_subset _ hx3)
          · exact ih _ hrest x hx3

/-- Whitespace-only input is normalized to the empty string. -/
theorem sanitize_ws_only {s : Str} (h : ∀ c ∈ s, jsWs c = true) (mx : Nat) :
    sanitizeText s mx = [] := by
  by_cases hs : s = []
  · simp [hs, sanitizeText]
  · have hC : ∀ c ∈ collapseWs s, jsWs c = true :=
      collapseGo_ws_only s.length s h
    have hcore : sanitizeCore s = [] := by
      rw [sanitizeCore_eq]
      unfold jsTrim
      have hdw : (collapseWs s).dropWhile jsWs = [] :=
        List.dropWhile_eq_nil_iff.mpr hC
      rw [hdw]
      rfl
    unfold sanitizeText
    simp [hs, hcore]

end Compass

namespace Compass

theorem dropWhile_app_of_ne {x y : Str} (h : x.dropWhile jsWs ≠ []) :
    (x ++ y).dropWhile jsWs = x.dropWhile jsWs ++ y := by
  rw [List.dropWhile_append]
  simp only [List.isEmpty_iff, h, if_false]

theorem dropTrail_app_of_ne {x y : Str} (h : y.reverse.dropWhile jsWs ≠ []) :
    dropTrailWs (x ++ y) = x ++ dropTrailWs y := by
  unfold dropTrailWs
  rw [List.reverse_append, dropWhile_app_of_ne h, List.reverse_append,
    List.reverse_reverse]

theorem tplA_head_solid : tplA.data.dropWhile jsWs ≠ [] := by decide

theorem tplC_tail_solid : tplC.data.reverse.dropWhile jsWs ≠ [] := by decide

/-- With non-empty title and body, the prompt is the trimmed template with
the two fields interpolated in the middle. -/
theorem buildPrompt_eq {t b : Str} (ht : t ≠ []) (hb : b ≠ []) :
    buildPrompt t b =
      tplA.data.dropWhile jsWs ++
        (t ++ (tplB.data ++ (b ++ dropTrailWs tplC.data))) := by
  unfold buildPrompt jsTrim
  simp only [ht, hb, if_false]
  have hshape : tplA.data ++ t ++ tplB.data ++ b ++ tplC.data =
      tplA.data ++ (t ++ (tplB.data ++ (b ++ tplC.data))) := by
    simp [List.append_assoc]
  rw [hshape, dropWhile_app_of_ne tplA_head_solid]
  have hshape2 : tplA.data.dropWhile jsWs ++ (t ++ (tplB.data ++ (b ++ tplC.data))) =
      (tplA.data.dropWhile jsWs ++ t ++ tplB.data ++ b) ++ tplC.data := by
    simp [List.append_assoc]
  rw [hshape2, dropTrail_app_of_ne tplC_tail_solid]
  simp [List.append_assoc]

theorem buildPrompt_embeds {t b : Str} (ht : t ≠ []) (hb : b ≠ []) :
    SubSeg t (buildPrompt t b) ∧ SubSeg b (buildPrompt t b) := by
  rw [buildPrompt_eq ht hb]
  constructor
  · exact ⟨tplA.data.dropWhile jsWs, tplB.data ++ (b ++ dropTrailWs tplC.data),
      by simp [List.append_assoc]⟩
  · exact ⟨tplA.data.dropWhile jsWs ++ t ++ tplB.data, dropTrailWs tplC.data,
      by simp [List.append_assoc]⟩

/-- Claim C10: in mode="text", a missing or whitespace-only title or body is
rejected with 400 `{ok:false}` before any completion call (normalization
precedes the required-field check), and every prompt that does reach the
completion call embeds a non-empty title and a non-empty body. -/
theorem c10_text_mode_guard (tf bf : Option Str) :
    (((tf = none ∨ ∃ s, tf = some s ∧ ∀ c ∈ s, jsWs c = true) ∨
      (bf = none ∨ ∃ s, bf = some s ∧ ∀ c ∈ s, jsWs c = true)) →
      textModeStep tf bf = .reject 400 false "タイトルと本文は必須です。".data) ∧
    (∀ p, textModeStep tf bf = .complete p →
      ∃ t b, t ≠ [] ∧ b ≠ [] ∧ p = buildPrompt t b ∧ SubSeg t p ∧ SubSeg b p) := by
  constructor
  · intro h
    have h2 : sanitizeText (tf.getD []) 8000 = [] ∨
        sanitizeText (bf.getD []) 8000 = [] := by
      rcases h with h | h
      · left
        rcases h with rfl | ⟨s, rfl, hws⟩
        · rfl
        · exact sanitize_ws_only hws 8000
      · right
        rcases h with rfl | ⟨s, rfl, hws⟩
        · rfl
        · exact sanitize_ws_only hws 8000
    unfold textModeStep
    rcases h2 with h2 | h2 <;> simp [h2]
  · intro p hp
    unfold textModeStep at hp
    by_cases hT : sanitizeText (tf.getD []) 8000 = []
    · simp [hT] at hp
    · by_cases hB : sanitizeText (bf.getD []) 8000 = []
      · simp [hT, hB] at hp
      · simp only [hT, hB, Bool.or_self, if_false, decide_eq_true_eq,
          Bool.or_eq_true, decide_eq_true_eq, or_self] at hp
        have hp2 : buildPrompt (sanitizeText (tf.getD []) 8000)
            (sanitizeText (bf.getD []) 8000) = p := by
          injection hp
        refine ⟨_, _, hT, hB, hp2.symm, ?_, ?_⟩
        · rw [← hp2]
          exact (buildPrompt_embeds hT hB).1
        · rw [← hp2]
          exact (buildPrompt_embeds hT hB).2

/-- Witness for C10: a whitespace-only title is rejected; a concrete valid
request reaches the completion call with both fields embedded. -/
theorem c10_text_mode_guard_witness :
    textModeStep (some "   ".data) (some "x".data) =
      .reject 400 false "タイトルと本文は必須です。".data ∧
    ∃ t b, t ≠ [] ∧ b ≠ [] ∧
      buildPrompt "T".data "B".data = buildPrompt t b ∧
      SubSeg t (buildPrompt "T".data "B".data) ∧
      SubSeg b (buildPrompt "T".data "B".data) :=
  ⟨(c10_text_mode_guard (some "   ".data) (some "x".data)).1
      (Or.inl (Or.inr ⟨"   ".data, rfl, by decide⟩)),
    (c10_text_mode_guard (some "T".data) (some "B".data)).2
      (buildPrompt "T".data "B".data) rfl⟩

end Compass

namespace Compass

theorem lookup_set_same : ∀ (fs : JObj) (k : Str) (v : JVal),
    lookupField (setField fs k v) k = some v
| .onil, k, v => by simp [setField, lookupField]
| .ocons k2 w rest, k, v => by
  unfold setField
  by_cases h : k2 = k
  · simp [h, lookupField]
  · simp only [h, if_false]
    unfold lookupField
    simp only [h, if_false]
    exact lookup_set_same rest k v

theorem lookup_set_other : ∀ (fs : JObj) (k : Str) (v : JVal) (k2 : Str),
    k2 ≠ k → lookupField (setField fs k v) k2 = lookupField fs k2
| .onil, k, v, k2, h => by
  simp only [setField, lookupField]
  rw [if_neg (show ¬(k = k2) from fun hh => h hh.symm)]
| .ocons k3 w rest, k, v, k2, h => by
  unfold setField
  by_cases h3 : k3 = k
  · subst h3
    rw [if_pos rfl]
    show (if k3 = k2 then some v else lookupField rest k2) =
      (if k3 = k2 then some w else lookupField rest k2)
    rw [if_neg (show ¬(k3 = k2) from fun hh => h hh.symm),
      if_neg (show ¬(k3 = k2) from fun hh => h hh.symm)]
  · simp only [h3, if_false]
    unfold lookupField
    by_cases h4 : k3 = k2
    · simp [h4]
    · simp only [h4, if_false]
      exact lookup_set_other rest k v k2 h

theorem coerceScore_shape (v : Option JVal) :
    (∃ n, coerceScore v = .jnum n) ∨ coerceScore v = .jnull := by
  unfold coerceScore
  cases h : jsParseIntOf v with
  | some n => exact Or.inl ⟨n, rfl⟩
  | none => exact Or.inr rfl

theorem setOverall_facts (fs : JObj) :
    (∃ v, lookupField (setOverall fs) osKey = some v ∧
      ((∃ n, v = JVal.jnum n) ∨ v = JVal.jnull)) ∧
    (∀ k, k ≠ osKey → lookupField (setOverall fs) k = lookupField fs k) := by
  constructor
  · exact ⟨_, lookup_set_same fs osKey _, coerceScore_shape _⟩
  · intro k hk
    exact lookup_set_other fs osKey _ k hk

theorem tfKey_ne_osKey : tfKey ≠ osKey := by decide

/-- Claim C2 (amended): after the post-parse coercion, and provided
`title_feedback` is absent, falsy, an object or an array (the cases in
which the strict-mode write does not abort the block), `overall_score` —
and `title_feedback.score` when `title_feedback` is an object — is an
integer or null: non-numeric values are nulled via `parseInt`, integers
pass through whether in range or not, and every other property of the
critique is unchanged. -/
theorem c2_score_coercion (fs : JObj)
    (hsafe : tfSafe (lookupField fs tfKey) = true) :
    ∃ fs2, formatCritique (.jobj fs) = .jobj fs2 ∧
      (∃ v, lookupField fs2 osKey = some v ∧
        ((∃ n, v = JVal.jnum n) ∨ v = JVal.jnull)) ∧
      (∀ g, lookupField fs tfKey = some (.jobj g) →
        ∃ g2, lookupField fs2 tfKey = some (.jobj g2) ∧
          (∃ w, lookupField g2 scoreKey = some w ∧
            ((∃ n, w = JVal.jnum n) ∨ w = JVal.jnull)) ∧
          ∀ k, k ≠ scoreKey → lookupField g2 k = lookupField g k) ∧
      (∀ k, k ≠ osKey → k ≠ tfKey → lookupField fs2 k = lookupField fs k) := by
  cases hlook : lookupField fs tfKey with
  | none =>
    refine ⟨setOverall fs, by simp [formatCritique, hlook], (setOverall_facts fs).1,
      ?_, ?_⟩
    · intro g hg
      exact absurd hg (by simp)
    · intro k h1 _
      exact (setOverall_facts fs).2 k h1
  | some tv =>
    cases tv with
    | jobj g =>
      refine ⟨setOverall (setField fs tfKey (.jobj
        (setField g scoreKey (coerceScore (lookupField g scoreKey))))),
        by simp [formatCritique, hlook, truthy], ?_, ?_, ?_⟩
      · exact (setOverall_facts _).1
      · intro g' hg'
        injection hg' with hg2
        injection hg2 with hg3
        subst hg3
        refine ⟨setField g scoreKey (coerceScore (lookupField g scoreKey)), ?_, ?_, ?_⟩
        · rw [(setOverall_facts _).2 tfKey tfKey_ne_osKey]
          exact lookup_set_same fs tfKey _
        · exact ⟨_, lookup_set_same g scoreKey _, coerceScore_shape _⟩
        · intro k hk
          exact lookup_set_other g scoreKey _ k hk
      · intro k h1 h2
        rw [(setOverall_facts _).2 k h1]
        exact lookup_set_other fs tfKey _ k h2
    | jarr a =>
      refine ⟨setOverall fs, by simp [formatCritique, hlook, truthy],
        (setOverall_facts fs).1, ?_, ?_⟩
      · intro g hg
        injection hg with hg2
        cases hg2
      · intro k h1 _
        exact (setOverall_facts fs).2 k h1
    | jnull =>
      refine ⟨setOverall fs, by simp [formatCritique, hlook, truthy],
        (setOverall_facts fs).1, ?_, ?_⟩
      · intro g hg
        injection hg with hg2
        cases hg2
      · intro k h1 _
        exact (setOverall_facts fs).2 k h1
    | jbool b =>
      have hb : b = false := by
        cases b
        · rfl
        · rw [hlook] at hsafe
          simp [tfSafe, truthy] at hsafe
      subst hb
      refine ⟨setOverall fs, by simp [formatCritique, hlook, truthy],
        (setOverall_facts fs).1, ?_, ?_⟩
      · intro g hg
        injection hg with hg2
        cases hg2
      · intro k h1 _
        exact (setOverall_facts fs).2 k h1
    | jnum n =>
      have hn : n = 0 := by
        by_cases h : n = 0
        · exact h
        · rw [hlook] at hsafe
          simp [tfSafe, truthy, h] at hsafe
      subst hn
      refine ⟨setOverall fs, by simp [formatCritique, hlook, truthy],
        (setOverall_facts fs).1, ?_, ?_⟩
      · intro g hg
        injection hg with hg2
        cases hg2
      · intro k h1 _
        exact (setOverall_facts fs).2 k h1
    | jstr s =>
      have hs : s = [] := by
        by_cases h : s = []
        · exact h
        · rw [hlook] at hsafe
          simp [tfSafe, truthy, h] at hsafe
      subst hs
      refine ⟨setOverall fs, by simp [formatCritique, hlook, truthy],
        (setOverall_facts fs).1, ?_, ?_⟩
      · intro g hg
        injection hg with hg2
        cases hg2
      · intro k h1 _
        exact (setOverall_facts fs).2 k h1

end Compass

namespace Compass

/-- Claim C2 counterexample: with a raw `overall_score` of `11`, the
coerced critique still carries `11` — an integer outside `[1,10]` that is
not coerced to null, contradicting the claimed invariant. -/
theorem c2_counterexample :
    formatCritique (.jobj (objOf
      [(tfKey, .jobj (objOf [(scoreKey, .jnum 3)])), (osKey, .jnum 11)])) =
      .jobj (objOf [(tfKey, .jobj (objOf [(scoreKey, .jnum 3)])), (osKey, .jnum 11)]) ∧
    lookupField (objOf [(tfKey, .jobj (objOf [(scoreKey, .jnum 3)])),
      (osKey, .jnum 11)]) osKey = some (.jnum 11) ∧
    ¬(1 ≤ (11 : Int) ∧ (11 : Int) ≤ 10) ∧ JVal.jnum 11 ≠ JVal.jnull :=
  ⟨rfl, rfl, by omega, fun h => JVal.noConfusion h⟩

/-- Witness for the amended C2 at a concrete critique whose
`title_feedback.score` is the non-numeric string `"high"`. -/
theorem c2_score_coercion_witness :
    tfSafe (lookupField (objOf
      [(tfKey, .jobj (objOf [(scoreKey, .jstr "high".data)])),
       (osKey, .jnum 11)]) tfKey) = true ∧
    ∃ fs2, formatCritique (.jobj (objOf
        [(tfKey, .jobj (objOf [(scoreKey, .jstr "high".data)])),
         (osKey, .jnum 11)])) = .jobj fs2 ∧
      (∃ v, lookupField fs2 osKey = some v ∧
        ((∃ n, v = JVal.jnum n) ∨ v = JVal.jnull)) ∧
      (∀ g, lookupField (objOf
          [(tfKey, .jobj (objOf [(scoreKey, .jstr "high".data)])),
           (osKey, .jnum 11)]) tfKey = some (.jobj g) →
        ∃ g2, lookupField fs2 tfKey = some (.jobj g2) ∧
          (∃ w, lookupField g2 scoreKey = some w ∧
            ((∃ n, w = JVal.jnum n) ∨ w = JVal.jnull)) ∧
          ∀ k, k ≠ scoreKey → lookupField g2 k = lookupField g k) ∧
      (∀ k, k ≠ osKey → k ≠ tfKey →
        lookupField fs2 k = lookupField (objOf
          [(tfKey, .jobj (objOf [(scoreKey, .jstr "high".data)])),
           (osKey, .jnum 11)]) k) :=
  ⟨rfl, c2_score_coercion _ rfl⟩

end Compass

namespace Compass

/-- One loop step on a skipped candidate. -/
theorem fallbackGo_cons_skip {att : Str → Str → Except Str Str} {prompt m : Str}
    {rest tried : List Str} {le e : Str} (hatt : att prompt m = .error e)
    (hcls : isModelNotFoundOrUnsupported e = true) :
    fallbackGo att prompt (m :: rest) tried le =
      fallbackGo att prompt rest (tried ++ [m]) e := by
  rw [fallbackGo]
  simp [hatt, hcls]

/-- One loop step on a non-empty success. -/
theorem fallbackGo_cons_ok {att : Str → Str → Except Str Str} {prompt m : Str}
    {rest tried : List Str} {le out : Str} (hatt : att prompt m = .ok out)
    (hout : out ≠ []) :
    fallbackGo att prompt (m :: rest) tried le = .success out m tried := by
  rw [fallbackGo]
  simp [hatt, hout]

theorem emptyRespMsg_not_skippable : isModelNotFoundOrUnsupported emptyRespMsg = false := by
  decide

/-- One loop step on an empty answer: the thrown error is not classified as
model-not-found, so the loop aborts. -/
theorem fallbackGo_cons_empty {att : Str → Str → Except Str Str} {prompt m : Str}
    {rest tried : List Str} {le : Str} (hatt : att prompt m = .ok []) :
    fallbackGo att prompt (m :: rest) tried le =
      .fatal emptyRespMsg (tried ++ [m]) := by
  rw [fallbackGo]
  simp [hatt, emptyRespMsg_not_skippable]

/-- One loop step on a request-level error. -/
theorem fallbackGo_cons_fatal {att : Str → Str → Except Str Str} {prompt m : Str}
    {rest tried : List Str} {le e : Str} (hatt : att prompt m = .error e)
    (hcls : isModelNotFoundOrUnsupported e = false) :
    fallbackGo att prompt (m :: rest) tried le = .fatal e (tried ++ [m]) := by
  rw [fallbackGo]
  simp [hatt, hcls]

/-- Skipped candidates accumulate into `tried` and the loop continues. -/
theorem fallbackGo_skips (att : Str → Str → Except Str Str) (prompt : Str) :
    ∀ (pre rest tried : List Str) (le : Str),
      (∀ p ∈ pre, skipsCandidate (att prompt p) = true) →
      ∃ le2, fallbackGo att prompt (pre ++ rest) tried le =
        fallbackGo att prompt rest (tried ++ pre) le2 := by
  intro pre
  induction pre with
  | nil =>
    intro rest tried le _
    exact ⟨le, by simp⟩
  | cons p pre2 ih =>
    intro rest tried le hskip
    have hp := hskip p (by simp)
    unfold skipsCandidate at hp
    cases hatt : att prompt p with
    | ok out => rw [hatt] at hp; cases hp
    | error e =>
      rw [hatt] at hp
      rcases ih rest (tried ++ [p]) e
        (fun q hq => hskip q (by simp [hq])) with ⟨le2, hle2⟩
      refine ⟨le2, ?_⟩
      rw [List.cons_append, fallbackGo_cons_skip hatt hp, hle2]
      congr 1
      simp

/-- Claim C3: the static-fallback resolver attempts the candidates strictly
in list order; model-not-found / method-unsupported failures advance to the
next candidate, any other failure (including an empty answer) aborts at
once, and the first success returns that model's text and identifier with
exactly the earlier (skipped) candidates attempted before it and none
after. -/
theorem c3_fallback_order (att : Str → Str → Except Str Str) (prompt : Str)
    (pre post : List Str) (m : Str)
    (hsplit : candidateModels = pre ++ m :: post)
    (hskip : ∀ p ∈ pre, skipsCandidate (att prompt p) = true) :
    (∀ out, att prompt m = .ok out → out ≠ [] →
      generateWithFallback att prompt = .success out m pre) ∧
    (att prompt m = .ok [] →
      generateWithFallback att prompt = .fatal emptyRespMsg (pre ++ [m])) ∧
    (∀ e, att prompt m = .error e → isModelNotFoundOrUnsupported e = false →
      generateWithFallback att prompt = .fatal e (pre ++ [m])) := by
  have hbase : ∃ le2, generateWithFallback att prompt =
      fallbackGo att prompt (m :: post) pre le2 := by
    unfold generateWithFallback
    rw [hsplit]
    rcases fallbackGo_skips att prompt pre (m :: post) [] [] hskip with ⟨le2, h⟩
    exact ⟨le2, by simpa using h⟩
  rcases hbase with ⟨le2, hbase⟩
  refine ⟨?_, ?_, ?_⟩
  · intro out hatt hout
    rw [hbase, fallbackGo_cons_ok hatt hout]
  · intro hatt
    rw [hbase, fallbackGo_cons_empty hatt]
  · intro e hatt hcls
    rw [hbase, fallbackGo_cons_fatal hatt hcls]

/-- Witness for C3: the first two candidates answer 404, the third
succeeds, the rest are not attempted. -/
theorem c3_fallback_order_witness :
    generateWithFallback
      (fun _ mo =>
        if mo = "gemini-1.5-flash-002".data then .ok "OK".data
        else .error "404".data) "p".data =
      .success "OK".data "gemini-1.5-flash-002".data
        ["gemini-1.5-pro-002".data, "gemini-1.5-pro".data] :=
  (c3_fallback_order
    (fun _ mo =>
      if mo = "gemini-1.5-flash-002".data then .ok "OK".data
      else .error "404".data) "p".data
    ["gemini-1.5-pro-002".data, "gemini-1.5-pro".data]
    ["gemini-1.5-flash".data, "gemini-1.0-pro".data]
    "gemini-1.5-flash-002".data (by decide) (by decide)).1
    "OK".data rfl (by decide)

end Compass

namespace Compass

theorem findPreferredIn_nil : ∀ names : List Str, findPreferredIn [] names = none
| [] => rfl
| _ :: rest => by
  unfold findPreferredIn
  simp [List.find?]
  exact findPreferredIn_nil rest

theorem findPreferredIn_mem :
    ∀ (usable : List GModelInfo) (names : List Str) (n : Str),
      findPreferredIn usable names = some n → ∃ m ∈ usable, m.name = n := by
  intro usable names
  induction names with
  | nil => intro n h; cases h
  | cons name rest ih =>
    intro n h
    unfold findPreferredIn at h
    cases hf : usable.find? (fun m => prefMatches m name) with
    | some found =>
      rw [hf] at h
      injection h with h2
      exact ⟨found, List.mem_of_find?_eq_some hf, h2⟩
    | none =>
      rw [hf] at h
      exact ih n h

/-- Claim C6 counterexample: a usable model whose name contains `/models/`
twice is matched by the `/models/<name>` suffix rule for the first
preferred name, but the returned string is the segment after the *first*
`/models/`, not the preferred name the claim promises (and not the entry's
name). -/
theorem c6_counterexample :
    pickBestModel
      [⟨"a/models/b/models/gemini-1.5-pro-002".data, ["generateContent".data]⟩] =
      some "b".data ∧
    claimPickModel
      [⟨"a/models/b/models/gemini-1.5-pro-002".data, ["generateContent".data]⟩] =
      some "gemini-1.5-pro-002".data ∧
    ("b".data : Str) ≠ "gemini-1.5-pro-002".data :=
  ⟨rfl, rfl, by decide⟩

/-- Claim C6 (amended): `pickBestModel` filters to completion-capable
entries and fails exactly when the filtered set is empty; the walk over the
static priority list (exact name or `/models/<name>` suffix) decides the
chosen entry, falling back to the first filtered entry; the returned string
is the chosen entry's name stripped to the segment after its first
`/models/` occurrence (the name itself when `/models/` does not occur —
in particular for exact-name matches the preferred name itself). -/
theorem pickBestModel_eq (models : List GModelInfo) :
    pickBestModel models =
      match findPreferredIn (models.filter supportsGC) preferredModels with
      | some n => some (stripModelsPath n)
      | none =>
        match models.filter supportsGC with
        | [] => none
        | m :: _ => some (stripModelsPath m.name) := rfl

theorem c6_pick_characterization (models : List GModelInfo) :
    (pickBestModel models = none ↔ models.filter supportsGC = []) ∧
    (∀ r, pickBestModel models = some r →
      ∃ m, m ∈ models ∧ supportsGC m = true ∧ r = stripModelsPath m.name) ∧
    (∀ n, findPreferredIn (models.filter supportsGC) preferredModels = some n →
      pickBestModel models = some (stripModelsPath n)) ∧
    (∀ n, findPreferredIn (models.filter supportsGC) preferredModels = some n →
      isSubstr modelsSep n = false → pickBestModel models = some n) := by
  refine ⟨?_, ?_, ?_, ?_⟩
  · rw [pickBestModel_eq]
    cases hfp : findPreferredIn (models.filter supportsGC) preferredModels with
    | some n =>
      constructor
      · intro h
        simp at h
      · intro h
        rw [h, findPreferredIn_nil] at hfp
        cases hfp
    | none =>
      cases hus : models.filter supportsGC with
      | nil => simp
      | cons m rest => simp
  · intro r hr
    rw [pickBestModel_eq] at hr
    cases hfp : findPreferredIn (models.filter supportsGC) preferredModels with
    | some n =>
      rw [hfp] at hr
      simp only [Option.some.injEq] at hr
      rcases findPreferredIn_mem _ _ _ hfp with ⟨m, hm, hname⟩
      rw [List.mem_filter] at hm
      exact ⟨m, hm.1, hm.2, by rw [← hr, hname]⟩
    | none =>
      rw [hfp] at hr
      cases hus : models.filter supportsGC with
      | nil => rw [hus] at hr; cases hr
      | cons m rest =>
        rw [hus] at hr
        simp only [Option.some.injEq] at hr
        have hm : m ∈ models.filter supportsGC := by rw [hus]; simp
        rw [List.mem_filter] at hm
        exact ⟨m, hm.1, hm.2, hr.symm⟩
  · intro n hfp
    rw [pickBestModel_eq, hfp]
  · intro n hfp hsub
    rw [pickBestModel_eq, hfp]
    unfold stripModelsPath
    simp [hsub]

/-- Witness for the amended C6: an exactly-named usable model is chosen and
returned verbatim. -/
theorem c6_pick_characterization_witness :
    findPreferredIn
      ([⟨"gemini-1.5-pro".data, ["generateContent".data]⟩].filter supportsGC)
      preferredModels = some "gemini-1.5-pro".data ∧
    pickBestModel [⟨"gemini-1.5-pro".data, ["generateContent".data]⟩] =
      some "gemini-1.5-pro".data :=
  ⟨rfl, (c6_pick_characterization
    [⟨"gemini-1.5-pro".data, ["generateContent".data]⟩]).2.2.2
    "gemini-1.5-pro".data rfl (by decide)⟩

end Compass

namespace Compass

theorem firstIdxAux_some :
    ∀ (p : Char → Bool) (l : Str) (i : Nat), firstIdxAux p l = some i →
      i < l.length ∧ p (charAt l i) = true ∧ ∀ k, k < i → p (charAt l k) = false := by
  intro p l
  induction l with
  | nil => intro i h; cases h
  | cons c cs ih =>
    intro i h
    unfold firstIdxAux at h
    by_cases hp : p c = true
    · rw [if_pos hp] at h
      injection h with h2
      subst h2
      exact ⟨by simp, by simpa [charAt] using hp, fun k hk => absurd hk (by omega)⟩
    · rw [if_neg hp] at h
      rcases Option.map_eq_some'.mp h with ⟨j, hj, rfl⟩
      obtain ⟨h1, h2, h3⟩ := ih j hj
      refine ⟨by simpa using h1, by simpa [charAt] using h2, ?_⟩
      intro k hk
      cases k with
      | zero => simpa [charAt] using hp
      | succ k2 =>
        have := h3 k2 (by omega)
        simpa [charAt] using this

theorem firstIdxAux_none :
    ∀ (p : Char → Bool) (l : Str), firstIdxAux p l = none →
      ∀ k, k < l.length → p (charAt l k) = false := by
  intro p l
  induction l with
  | nil => intro _ k hk; simp at hk
  | cons c cs ih =>
    intro h k hk
    unfold firstIdxAux at h
    by_cases hp : p c = true
    · rw [if_pos hp] at h; cases h
    · rw [if_neg hp] at h
      cases k with
      | zero => simpa [charAt] using hp
      | succ k2 =>
        have h2 : firstIdxAux p cs = none := by
          cases hfi : firstIdxAux p cs with
          | none => rfl
          | some j => rw [hfi] at h; cases h
        have := ih h2 k2 (by simpa using hk)
        simpa [charAt] using this

theorem lastIdxUnder_some :
    ∀ (p : Nat → Bool) (n j : Nat), lastIdxUnder p n = some j →
      j < n ∧ p j = true ∧ ∀ k, j < k → k < n → p k = false := by
  intro p n
  induction n with
  | zero => intro j h; cases h
  | succ n ih =>
    intro j h
    unfold lastIdxUnder at h
    by_cases hp : p n = true
    · rw [if_pos hp] at h
      injection h with h2
      subst h2
      refine ⟨by omega, hp, fun k hk1 hk2 => ?_⟩
      exact absurd hk2 (by omega)
    · rw [if_neg hp] at h
      obtain ⟨h1, h2, h3⟩ := ih j h
      refine ⟨by omega, h2, ?_⟩
      intro k hk1 hk2
      by_cases hkn : k = n
      · subst hkn; simpa using hp
      · exact h3 k hk1 (by omega)

theorem lastIdxUnder_none :
    ∀ (p : Nat → Bool) (n : Nat), lastIdxUnder p n = none →
      ∀ k, k < n → p k = false := by
  intro p n
  induction n with
  | zero => intro _ k hk; omega
  | succ n ih =>
    intro h k hk
    unfold lastIdxUnder at h
    by_cases hp : p n = true
    · rw [if_pos hp] at h; cases h
    · rw [if_neg hp] at h
      by_cases hkn : k = n
      · subst hkn; simpa using hp
      · exact ih h k (by omega)

theorem drop_head? :
    ∀ (l : Str) (i : Nat), i < l.length → (l.drop i).head? = some (charAt l i) := by
  intro l
  induction l with
  | nil => intro i hi; simp at hi
  | cons c cs ih =>
    intro i hi
    cases i with
    | zero => simp [charAt]
    | succ i2 =>
      have := ih i2 (by simpa using hi)
      simpa [charAt] using this

theorem charAt_drop :
    ∀ (l : Str) (i k : Nat), charAt (l.drop i) k = charAt l (i + k) := by
  intro l
  induction l with
  | nil => intro i k; simp [charAt]
  | cons c cs ih =>
    intro i k
    cases i with
    | zero => simp
    | succ i2 =>
      have := ih i2 k
      simp only [List.drop_succ_cons]
      rw [this]
      have : i2 + 1 + k = (i2 + k) + 1 := by omega
      rw [this]
      simp [charAt]

theorem take_getLast? :
    ∀ (l : Str) (k : Nat), k < l.length →
      (l.take (k + 1)).getLast? = some (charAt l k) := by
  intro l
  induction l with
  | nil => intro k hk; simp at hk
  | cons c cs ih =>
    intro k hk
    cases k with
    | zero => simp [charAt]
    | succ k2 =>
      have hk2 : k2 < cs.length := by simpa using hk
      have hih := ih k2 hk2
      rw [List.take_succ_cons,
        show (c :: cs.take (k2 + 1)) = [c] ++ cs.take (k2 + 1) from rfl,
        List.getLast?_append, hih]
      simp [charAt]

theorem take_head? (l : Str) (k : Nat) : (l.take (k + 1)).head? = l.head? := by
  cases l <;> simp

theorem sliceIncl_facts (s : Str) (i j : Nat) (hij : i < j) (hj : j < s.length) :
    SubSeg (sliceIncl s i j) s ∧
    (sliceIncl s i j).head? = some (charAt s i) ∧
    (sliceIncl s i j).getLast? = some (charAt s j) := by
  refine ⟨⟨s.take i, s.drop (j + 1), ?_⟩, ?_, ?_⟩
  · unfold sliceIncl
    have h1 : (s.drop i).take (j - i + 1) ++ (s.drop i).drop (j - i + 1) = s.drop i :=
      List.take_append_drop _ _
    have h2 : (s.drop i).drop (j - i + 1) = s.drop (j + 1) := by
      rw [List.drop_drop]
      congr 1
      omega
    rw [← h2, List.append_assoc, h1, List.take_append_drop]
  · unfold sliceIncl
    have hlen : i < s.length := by omega
    obtain ⟨k, hk⟩ : ∃ k, j - i + 1 = k + 1 := ⟨j - i, rfl⟩
    rw [hk, take_head?, drop_head? s i hlen]
  · unfold sliceIncl
    have hk : j - i < (s.drop i).length := by
      have hd : (s.drop i).length = s.length - i := List.length_drop ..
      omega
    have harith : i + (j - i) = j := by omega
    rw [take_getLast? _ _ hk, charAt_drop, harith]

end Compass

namespace Compass

/-- A brace pair `{ ... }` with the `{` strictly before the `}`. -/
def BracePair (s : Str) : Prop :=
  ∃ i j, i < j ∧ j < s.length ∧ isOpenBrace (charAt s i) = true ∧
    isCloseBrace (charAt s j) = true

theorem matchGreedy_none_iff (s : Str) :
    matchGreedy s = none ↔ ¬BracePair s := by
  unfold matchGreedy
  constructor
  · intro h hpair
    rcases hpair with ⟨i, j, hij, hjlen, hopen, hclose⟩
    cases hfi : firstIdxAux isOpenBrace s with
    | none =>
      have := firstIdxAux_none _ _ hfi i (by omega)
      rw [hopen] at this
      cases this
    | some i0 =>
      cases hla : lastIdxUnder (fun j => closeBraceAt s j) s.length with
      | none =>
        have := lastIdxUnder_none _ _ hla j hjlen
        unfold closeBraceAt at this
        rw [hclose] at this
        cases this
      | some j0 =>
        rw [hfi, hla] at h
        have h2 : (if i0 < j0 then some (sliceIncl s i0 j0) else none) = none := h
        by_cases hij0 : i0 < j0
        · rw [if_pos hij0] at h2
          cases h2
        · obtain ⟨hi0len, hpi0, hmin⟩ := firstIdxAux_some _ _ _ hfi
          obtain ⟨hj0len, hpj0, hmax⟩ := lastIdxUnder_some _ _ _ hla
          have hi0i : i0 ≤ i := by
            by_contra hlt
            push_neg at hlt
            have := hmin i hlt
            rw [hopen] at this
            cases this
          have hjj0 : j ≤ j0 := by
            by_contra hlt
            push_neg at hlt
            have := hmax j hlt hjlen
            unfold closeBraceAt at this
            rw [hclose] at this
            cases this
          omega
  · intro h
    cases hfi : firstIdxAux isOpenBrace s with
    | none => simp
    | some i0 =>
      cases hla : lastIdxUnder (fun j => closeBraceAt s j) s.length with
      | none => simp
      | some j0 =>
        obtain ⟨hi0len, hpi0, _⟩ := firstIdxAux_some _ _ _ hfi
        obtain ⟨hj0len, hpj0, _⟩ := lastIdxUnder_some _ _ _ hla
        by_cases hij0 : i0 < j0
        · exact absurd ⟨i0, j0, hij0, hj0len, hpi0, hpj0⟩ h
        · simp [hij0]

theorem matchGreedyML_none_of (s : Str) (h : ¬BracePair s) :
    matchGreedyML s = none := by
  unfold matchGreedyML
  cases hfi : firstIdxAux isOpenBrace s with
  | none => simp
  | some i0 =>
    cases hla : lastIdxUnder (fun j => closeBraceAt s j && lineEndAfter s j)
        s.length with
    | none => simp
    | some j0 =>
      obtain ⟨hi0len, hpi0, _⟩ := firstIdxAux_some _ _ _ hfi
      obtain ⟨hj0len, hpj0, _⟩ := lastIdxUnder_some _ _ _ hla
      rcases Bool.and_eq_true_iff.mp hpj0 with ⟨hclose, _⟩
      by_cases hij0 : i0 < j0
      · exact absurd ⟨i0, j0, hij0, hj0len, hpi0, hclose⟩ h
      · simp [hij0]

theorem matchGreedyML_shape (s : Str) (m : Str) (h : matchGreedyML s = some m) :
    SubSeg m s ∧ m.head? = some '\x7b' ∧ m.getLast? = some '\x7d' := by
  unfold matchGreedyML at h
  cases hfi : firstIdxAux isOpenBrace s with
  | none => rw [hfi] at h; cases h
  | some i0 =>
    cases hla : lastIdxUnder (fun j => closeBraceAt s j && lineEndAfter s j)
        s.length with
    | none => rw [hfi, hla] at h; cases h
    | some j0 =>
      rw [hfi, hla] at h
      have h1 : (if i0 < j0 then some (sliceIncl s i0 j0) else none) = some m := h
      by_cases hij0 : i0 < j0
      · rw [if_pos hij0] at h1
        injection h1 with h2
        subst h2
        obtain ⟨hi0len, hpi0, _⟩ := firstIdxAux_some _ _ _ hfi
        obtain ⟨hj0len, hpj0, _⟩ := lastIdxUnder_some _ _ _ hla
        rcases Bool.and_eq_true_iff.mp hpj0 with ⟨hclose, _⟩
        obtain ⟨hsub, hhead, hlast⟩ := sliceIncl_facts s i0 j0 hij0 hj0len
        refine ⟨hsub, ?_, ?_⟩
        · rw [hhead]
          unfold isOpenBrace at hpi0
          simp only [decide_eq_true_eq] at hpi0
          rw [hpi0]
        · rw [hlast]
          unfold closeBraceAt isCloseBrace at hclose
          simp only [decide_eq_true_eq] at hclose
          rw [hclose]
      · rw [if_neg hij0] at h1
        cases h1

theorem matchGreedy_shape (s : Str) (m : Str) (h : matchGreedy s = some m) :
    SubSeg m s ∧ m.head? = some '\x7b' ∧ m.getLast? = some '\x7d' := by
  unfold matchGreedy at h
  cases hfi : firstIdxAux isOpenBrace s with
  | none => rw [hfi] at h; cases h
  | some i0 =>
    cases hla : lastIdxUnder (fun j => closeBraceAt s j) s.length with
    | none => rw [hfi, hla] at h; cases h
    | some j0 =>
      rw [hfi, hla] at h
      have h1 : (if i0 < j0 then some (sliceIncl s i0 j0) else none) = some m := h
      by_cases hij0 : i0 < j0
      · rw [if_pos hij0] at h1
        injection h1 with h2
        subst h2
        obtain ⟨hi0len, hpi0, _⟩ := firstIdxAux_some _ _ _ hfi
        obtain ⟨hj0len, hpj0, _⟩ := lastIdxUnder_some _ _ _ hla
        obtain ⟨hsub, hhead, hlast⟩ := sliceIncl_facts s i0 j0 hij0 hj0len
        refine ⟨hsub, ?_, ?_⟩
        · rw [hhead]
          unfold isOpenBrace at hpi0
          simp only [decide_eq_true_eq] at hpi0
          rw [hpi0]
        · rw [hlast]
          unfold closeBraceAt isCloseBrace at hpj0
          simp only [decide_eq_true_eq] at hpj0
          rw [hpj0]
      · rw [if_neg hij0] at h1
        cases h1

theorem selectedRegion_none_iff (s : Str) :
    selectedJsonRegion s = none ↔ ¬BracePair s := by
  unfold selectedJsonRegion
  constructor
  · intro h
    cases hml : matchGreedyML s with
    | some m => rw [hml] at h; cases h
    | none =>
      rw [hml] at h
      exact (matchGreedy_none_iff s).mp h
  · intro h
    rw [matchGreedyML_none_of s h]
    exact (matchGreedy_none_iff s).mpr h

theorem selectedRegion_shape (s : Str) (m : Str)
    (h : selectedJsonRegion s = some m) :
    SubSeg m s ∧ m.head? = some '\x7b' ∧ m.getLast? = some '\x7d' := by
  unfold selectedJsonRegion at h
  cases hml : matchGreedyML s with
  | some m2 =>
    rw [hml] at h
    injection h with h2
    rw [← h2]
    exact matchGreedyML_shape s m2 hml
  | none =>
    rw [hml] at h
    exact matchGreedy_shape s m h

end Compass

namespace Compass

/-- Claim C1 counterexample: on `{"a":1} x {"b":2} t` neither regular
expression's region parses — the code raises a parse error — while the
claim's algorithm (greedy first-to-last braces, then the first non-greedy
match when the greedy region fails to parse) succeeds with `{"a":1}`. -/
theorem c1_counterexample :
    extractJsonFromText "\x7b\"a\":1\x7d x \x7b\"b\":2\x7d t".data = .parseFailure ∧
    claimJsonRegion "\x7b\"a\":1\x7d x \x7b\"b\":2\x7d t".data =
      .ok "\x7b\"a\":1\x7d".data ∧
    ExtractOutcome.parseFailure ≠ ExtractOutcome.ok "\x7b\"a\":1\x7d".data :=
  ⟨rfl, rfl, by decide⟩

/-- Claim C1 (amended): `extractJsonFromText` selects the match of
`/\{[\s\S]*\}$/m` — first `{` through the last `}` that ends a line — and,
only when that pattern has no match at all, falls back to
`/\{[\s\S]*\}/m` — first `{` through the last `}` anywhere; both are
greedy and no brace balance is checked.  It raises the extraction-failure
error exactly when no `{` is followed by a later `}`, returns the selected
region exactly when that region is valid JSON, and otherwise propagates a
parse failure (with no second attempt). -/
theorem c1_extract_characterization (s : Str) :
    (extractJsonFromText s = .extractionFailure ↔ ¬BracePair s) ∧
    (∀ m, extractJsonFromText s = .ok m →
      jsonValid m = true ∧ SubSeg m s ∧ m.head? = some '\x7b' ∧
        m.getLast? = some '\x7d') ∧
    (extractJsonFromText s = .parseFailure ↔
      ∃ m, selectedJsonRegion s = some m ∧ jsonValid m = false) ∧
    (∀ m, selectedJsonRegion s = some m →
      matchGreedyML s = some m ∨
        (matchGreedyML s = none ∧ matchGreedy s = some m)) := by
  refine ⟨?_, ?_, ?_, ?_⟩
  · unfold extractJsonFromText
    cases hsel : selectedJsonRegion s with
    | none =>
      constructor
      · intro _
        exact (selectedRegion_none_iff s).mp hsel
      · intro _
        rfl
    | some m =>
      constructor
      · intro h
        have h2 : (if jsonValid m = true then ExtractOutcome.ok m
            else ExtractOutcome.parseFailure) = ExtractOutcome.extractionFailure := h
        by_cases hv : jsonValid m = true
        · rw [if_pos hv] at h2
          cases h2
        · rw [if_neg hv] at h2
          cases h2
      · intro h
        have := (selectedRegion_none_iff s).mpr h
        rw [hsel] at this
        cases this
  · intro m h
    unfold extractJsonFromText at h
    cases hsel : selectedJsonRegion s with
    | none => rw [hsel] at h; cases h
    | some m2 =>
      rw [hsel] at h
      have h1 : (if jsonValid m2 = true then ExtractOutcome.ok m2
          else ExtractOutcome.parseFailure) = ExtractOutcome.ok m := h
      by_cases hv : jsonValid m2 = true
      · rw [if_pos hv] at h1
        injection h1 with h2
        rw [← h2]
        obtain ⟨hsub, hhead, hlast⟩ := selectedRegion_shape s m2 hsel
        exact ⟨hv, hsub, hhead, hlast⟩
      · rw [if_neg hv] at h1
        cases h1
  · unfold extractJsonFromText
    cases hsel : selectedJsonRegion s with
    | none =>
      constructor
      · intro h
        cases h
      · intro ⟨m, hm, _⟩
        cases hm
    | some m =>
      constructor
      · intro h
        have h2 : (if jsonValid m = true then ExtractOutcome.ok m
            else ExtractOutcome.parseFailure) = ExtractOutcome.parseFailure := h
        by_cases hv : jsonValid m = true
        · rw [if_pos hv] at h2
          cases h2
        · exact ⟨m, rfl, by simpa using hv⟩
      · intro ⟨m2, hm2, hv2⟩
        injection hm2 with hm3
        rw [← hm3] at hv2
        show (if jsonValid m = true then ExtractOutcome.ok m
          else ExtractOutcome.parseFailure) = ExtractOutcome.parseFailure
        rw [if_neg (by simp [hv2])]
  · intro m h
    unfold selectedJsonRegion at h
    cases hml : matchGreedyML s with
    | some m2 =>
      rw [hml] at h
      have h2 : some m2 = some m := h
      exact Or.inl h2
    | none =>
      rw [hml] at h
      exact Or.inr ⟨rfl, h⟩

/-- Witness for the amended C1: a response with prose before the JSON
object selects exactly the brace region, which parses. -/
theorem c1_extract_characterization_witness :
    extractJsonFromText "noise \x7b\"a\":1\x7d".data =
      .ok "\x7b\"a\":1\x7d".data ∧
    jsonValid "\x7b\"a\":1\x7d".data = true ∧
    SubSeg "\x7b\"a\":1\x7d".data "noise \x7b\"a\":1\x7d".data ∧
    ("\x7b\"a\":1\x7d".data).head? = some '\x7b' ∧
    ("\x7b\"a\":1\x7d".data).getLast? = some '\x7d' :=
  ⟨rfl, (c1_extract_characterization "noise \x7b\"a\":1\x7d".data).2.1
    "\x7b\"a\":1\x7d".data rfl⟩

end Compass

namespace Compass

mutual

theorem anyN_pruneN (p : Str → List (Str × Str) → Bool) :
    ∀ (n m : HNode), pruneN p n = some m → anyN p m = false
| .htext s, m, h => by
  injection h with h2
  rw [← h2]
  rfl
| .helem tag attrs cs, m, h => by
  unfold pruneN at h
  by_cases hp : p tag attrs = true
  · rw [if_pos hp] at h
    cases h
  · rw [if_neg hp] at h
    injection h with h2
    rw [← h2]
    show (p tag attrs || anyF p (pruneF p cs)) = false
    have := anyF_pruneF p cs
    simp [this, hp]

theorem anyF_pruneF (p : Str → List (Str × Str) → Bool) :
    ∀ (f : HForest), anyF p (pruneF p f) = false
| .fnil => rfl
| .fcons n f => by
  unfold pruneF
  cases hn : pruneN p n with
  | none => exact anyF_pruneF p f
  | some m =>
    show (anyN p m || anyF p (pruneF p f)) = false
    simp [anyN_pruneN p n m hn, anyF_pruneF p f]

end

mutual

theorem anyN_pruneN_pres (p q : Str → List (Str × Str) → Bool) :
    ∀ (n m : HNode), anyN p n = false → pruneN q n = some m → anyN p m = false
| .htext s, m, _, h => by
  injection h with h2
  rw [← h2]
  rfl
| .helem tag attrs cs, m, hfalse, h => by
  unfold pruneN at h
  by_cases hq : q tag attrs = true
  · rw [if_pos hq] at h
    cases h
  · rw [if_neg hq] at h
    injection h with h2
    rw [← h2]
    show (p tag attrs || anyF p (pruneF q cs)) = false
    have h3 : (p tag attrs || anyF p cs) = false := hfalse
    rcases Bool.or_eq_false_iff.mp h3 with ⟨h4, h5⟩
    simp [h4, anyF_pruneF_pres p q cs h5]

theorem anyF_pruneF_pres (p q : Str → List (Str × Str) → Bool) :
    ∀ (f : HForest), anyF p f = false → anyF p (pruneF q f) = false
| .fnil, _ => rfl
| .fcons n f, hfalse => by
  have h3 : (anyN p n || anyF p f) = false := hfalse
  rcases Bool.or_eq_false_iff.mp h3 with ⟨h4, h5⟩
  unfold pruneF
  cases hn : pruneN q n with
  | none => exact anyF_pruneF_pres p q f h5
  | some m =>
    show (anyN p m || anyF p (pruneF q f)) = false
    simp [anyN_pruneN_pres p q n m h4 hn, anyF_pruneF_pres p q f h5]

end

mutual

theorem queryN_nil_iff (p : Str → List (Str × Str) → Bool) :
    ∀ (n : HNode), queryN p n = [] ↔ anyN p n = false
| .htext s => by
  constructor
  · intro _
    rfl
  · intro _
    rfl
| .helem tag attrs cs => by
  show ((if p tag attrs then [HNode.helem tag attrs cs] else []) ++ queryF p cs) = []
    ↔ (p tag attrs || anyF p cs) = false
  by_cases hp : p tag attrs = true
  · simp [hp]
  · simp only [hp, Bool.false_eq_true, if_false, List.nil_append,
      Bool.or_eq_false_iff]
    have hp2 : p tag attrs = false := by simpa using hp
    simp [hp2, queryF_nil_iff p cs]

theorem queryF_nil_iff (p : Str → List (Str × Str) → Bool) :
    ∀ (f : HForest), queryF p f = [] ↔ anyF p f = false
| .fnil => by
  constructor
  · intro _
    rfl
  · intro _
    rfl
| .fcons n f => by
  show (queryN p n ++ queryF p f) = [] ↔ (anyN p n || anyF p f) = false
  rw [List.append_eq_nil, Bool.or_eq_false_iff,
    queryN_nil_iff p n, queryF_nil_iff p f]

end

theorem anyF_foldl_keep :
    ∀ (sels : List CssSel) (d : HForest) (p : Str → List (Str × Str) → Bool),
      anyF p d = false →
      anyF p (sels.foldl (fun d s => pruneF (selMatches s) d) d) = false := by
  intro sels
  induction sels with
  | nil => intro d p h; exact h
  | cons s ss ih =>
    intro d p h
    rw [List.foldl_cons]
    exact ih _ p (anyF_pruneF_pres p (selMatches s) d h)

theorem anyF_foldl_prune :
    ∀ (sels : List CssSel) (d : HForest) (sel : CssSel), sel ∈ sels →
      anyF (selMatches sel)
        (sels.foldl (fun d s => pruneF (selMatches s) d) d) = false := by
  intro sels
  induction sels with
  | nil => intro d sel h; cases h
  | cons s ss ih =>
    intro d sel h
    rw [List.foldl_cons]
    rcases List.mem_cons.mp h with rfl | h2
    · exact anyF_foldl_keep ss _ _ (anyF_pruneF _ d)
    · exact ih _ sel h2

/-- Claim C5: the extraction factors through the noise sweep — title and
body are computed on the swept document — and the swept document contains
no element matching any selector of the noise set, so no text inside a
noise element can reach the extracted title or body. -/
theorem c5_noise_removed (doc : HForest) :
    extractArticle doc = extractCore (cleanNoise doc) ∧
    ∀ sel ∈ noiseSelectors, anyF (selMatches sel) (cleanNoise doc) = false := by
  refine ⟨rfl, ?_⟩
  intro sel hsel
  exact anyF_foldl_prune noiseSelectors doc sel hsel

/-- Witness for C5 at a concrete document with a `<header>` wrapping an
`<h1>`. -/
theorem c5_noise_removed_witness :
    CssSel.tagSel "header".data ∈ noiseSelectors ∧
    anyF (selMatches (CssSel.tagSel "header".data))
      (cleanNoise (forestOf
        [.helem "header".data [] (forestOf [.helem "h1".data []
          (forestOf [.htext "Nav".data])]),
         .htext "y".data])) = false :=
  ⟨by decide,
    (c5_noise_removed (forestOf
      [.helem "header".data [] (forestOf [.helem "h1".data []
        (forestOf [.htext "Nav".data])]),
       .htext "y".data])).2 _ (by decide)⟩

theorem queryF_not_nil_isEmpty {p : Str → List (Str × Str) → Bool}
    {d : HForest} (h : anyF p d = true) : (queryF p d).isEmpty = false := by
  cases hq : queryF p d with
  | nil =>
    rw [(queryF_nil_iff p d).mp hq] at h
    cases h
  | cons a l => rfl

theorem queryF_nil_isEmpty {p : Str → List (Str × Str) → Bool}
    {d : HForest} (h : anyF p d = false) : (queryF p d).isEmpty = true := by
  have hq : queryF p d = [] := (queryF_nil_iff p d).mpr h
  rw [hq]
  rfl

/-- Claim C4 (amended): the body tier is chosen by container *presence*
(after the noise sweep): the first `<article>` element's text whenever any
`<article>` exists — even when its text is empty and a later tier is not —
else the first `<main>` element's text whenever any `<main>` exists, else
the blank-line join of the non-empty trimmed paragraph texts; tiers are
never merged. -/
theorem c4_body_presence_tiers (doc : HForest) :
    (anyF (isTagP "article".data) (cleanNoise doc) = true →
      (extractArticle doc).body =
        jsTrim (firstMatchText (isTagP "article".data) (cleanNoise doc))) ∧
    (anyF (isTagP "article".data) (cleanNoise doc) = false →
      anyF (isTagP "main".data) (cleanNoise doc) = true →
      (extractArticle doc).body =
        jsTrim (firstMatchText (isTagP "main".data) (cleanNoise doc))) ∧
    (anyF (isTagP "article".data) (cleanNoise doc) = false →
      anyF (isTagP "main".data) (cleanNoise doc) = false →
      (extractArticle doc).body =
        jsTrim (List.intercalate "\n\n".data (paraTexts (cleanNoise doc)))) := by
  refine ⟨?_, ?_, ?_⟩
  · intro h
    show (extractCore (cleanNoise doc)).body = _
    unfold extractCore extractBody
    simp [queryF_not_nil_isEmpty h]
  · intro h1 h2
    show (extractCore (cleanNoise doc)).body = _
    unfold extractCore extractBody
    simp [queryF_nil_isEmpty h1, queryF_not_nil_isEmpty h2]
  · intro h1 h2
    show (extractCore (cleanNoise doc)).body = _
    unfold extractCore extractBody
    simp [queryF_nil_isEmpty h1, queryF_nil_isEmpty h2]

/-- Claim C4 counterexample: with an empty `<article>` and a non-empty
`<main>`, the code returns the empty `<article>` body while the claim's
first-non-empty-tier rule returns the `<main>` text. -/
theorem c4_counterexample :
    (extractArticle (forestOf [.helem "article".data [] .fnil,
      .helem "main".data [] (forestOf [.htext "Hello".data])])).body = [] ∧
    claimBodyByContent (forestOf [.helem "article".data [] .fnil,
      .helem "main".data [] (forestOf [.htext "Hello".data])]) = "Hello".data ∧
    ([] : Str) ≠ "Hello".data :=
  ⟨rfl, rfl, by decide⟩

/-- Witness for the amended C4: both containers present with different
non-empty text — the `<article>` text is returned. -/
theorem c4_body_presence_tiers_witness :
    anyF (isTagP "article".data) (cleanNoise (forestOf
      [.helem "article".data [] (forestOf [.htext "A".data]),
       .helem "main".data [] (forestOf [.htext "M".data])])) = true ∧
    (extractArticle (forestOf
      [.helem "article".data [] (forestOf [.htext "A".data]),
       .helem "main".data [] (forestOf [.htext "M".data])])).body =
      jsTrim (firstMatchText (isTagP "article".data) (cleanNoise (forestOf
        [.helem "article".data [] (forestOf [.htext "A".data]),
         .helem "main".data [] (forestOf [.htext "M".data])]))) :=
  ⟨rfl, (c4_body_presence_tiers (forestOf
    [.helem "article".data [] (forestOf [.htext "A".data]),
     .helem "main".data [] (forestOf [.htext "M".data])])).1 rfl⟩

/-- Claim C9: the extracted title is the first non-empty candidate among —
in this order — the first `<h1>`'s trimmed text, the `og:title` meta
content, and the document `<title>`'s trimmed text (all read off the
noise-swept document), and empty when all candidates are empty. -/
theorem c9_title_priority (doc : HForest) :
    (extractArticle doc).title =
      firstNonNilStr
        [jsTrim (firstMatchText (isTagP "h1".data) (cleanNoise doc)),
         (firstMatchAttr isOgTitleMeta (cleanNoise doc) "content".data).getD [],
         jsTrim (firstMatchText (isTagP "title".data) (cleanNoise doc))] := by
  show (extractCore (cleanNoise doc)).title = _
  unfold extractCore extractTitle jsOrStr firstNonNilStr
  by_cases h1 : jsTrim (firstMatchText (isTagP "h1".data) (cleanNoise doc)) = [] <;>
    by_cases h2 : (firstMatchAttr isOgTitleMeta (cleanNoise doc)
      "content".data).getD [] = [] <;>
    by_cases h3 : jsTrim (firstMatchText (isTagP "title".data)
      (cleanNoise doc)) = [] <;>
    simp [h1, h2, h3, firstNonNilStr]

end Compass
